import Mathlib

/-!
Verification of the qctools DFA engine and maximal-munch lexer driver.

The definitions below are a shallow embedding of `src/parser/src/dfa.rs`
and `src/parser/src/lexer.rs` (the module `src/lexer/src/dfa.rs` is the
same code up to renaming `Automaton` to `Automata`).

Modelling conventions:
* `RangeInclusive<Sym>` is a pair `(lo, hi)`; `contains` is `lo ≤ s ∧ s ≤ hi`.
* `Vec` indexing that the Rust code performs only at provably in-bounds
  indices is modelled totally with `List.getD` / `List.get?`.
* The fatal `panic!` in `AutomatonBuilder::add_transition` is modelled as
  `Option` (`none` = the fatal failure).
* The lexer's `step` is split into `Lexer.stepT`, which emits the token
  kind and the raw consumed text, and `Lexer.step`, which applies
  `Token.new` exactly where the Rust code does.
-/

namespace QCT

variable {Sym K : Type}

/-- `dfa.rs`: `pub const START: usize = 0`. -/
def START : Nat := 0

/-- `dfa.rs` `State`: ordered transition table of (inclusive range, target
state index) plus an accepting flag. -/
structure State (Sym : Type) where
  transitions : List ((Sym × Sym) × Nat)
  accepting : Bool
deriving DecidableEq

/-- `State::new`. -/
def State.new (accepting : Bool) : State Sym :=
  ⟨[], accepting⟩

/-- `RangeInclusive::contains`. -/
def rangeContains [LinearOrder Sym] (r : Sym × Sym) (s : Sym) : Bool :=
  decide (r.1 ≤ s) && decide (s ≤ r.2)

/-- `State::transition`: first containing range wins; the absent symbol
(sentinel) never matches. -/
def State.transition [LinearOrder Sym] (st : State Sym) (symbol : Option Sym) :
    Option Nat :=
  match symbol with
  | some s =>
    match st.transitions.find? (fun t => rangeContains t.1 s) with
    | some t => some t.2
    | none => none
  | none => none

/-- `dfa.rs` `Automaton`. -/
structure Automaton (Sym : Type) where
  states : List (State Sym)
  current_state : Option Nat
  previous_accepting : Bool
deriving DecidableEq

/-- `Automaton::transition`: snapshot the accepting-ness of the current
state, then move (or die). -/
def Automaton.transition [LinearOrder Sym] (a : Automaton Sym)
    (symbol : Option Sym) : Automaton Sym :=
  { a with
    previous_accepting :=
      (a.current_state.map
        (fun idx => (a.states.getD idx (State.new false)).accepting)).getD false
    current_state :=
      match a.current_state with
      | some idx => (a.states.getD idx (State.new false)).transition symbol
      | none => a.current_state }

/-- `Automaton::is_previous_accepting`. -/
def Automaton.is_previous_accepting (a : Automaton Sym) : Bool :=
  a.previous_accepting

/-- `Automaton::is_alive`. -/
def Automaton.is_alive (a : Automaton Sym) : Bool :=
  a.current_state.isSome

/-- `Automaton::reset`. -/
def Automaton.reset (a : Automaton Sym) : Automaton Sym :=
  { a with current_state := some START, previous_accepting := false }

/-- `dfa.rs` `AutomatonBuilder`. -/
structure AutomatonBuilder (Sym : Type) where
  states : List (State Sym)

/-- `AutomatonBuilder::new`: one non-accepting start state. -/
def AutomatonBuilder.new : AutomatonBuilder Sym :=
  ⟨[State.new false]⟩

/-- `AutomatonBuilder::add_state`: append a state, return its index. -/
def AutomatonBuilder.add_state (b : AutomatonBuilder Sym) (accepting : Bool) :
    AutomatonBuilder Sym × Nat :=
  (⟨b.states ++ [State.new accepting]⟩, b.states.length)

/-- In-place update of one list element (Rust's `self.states[from]...push`). -/
def modifyIdx (l : List α) (i : Nat) (f : α → α) : List α :=
  match l, i with
  | [], _ => []
  | x :: xs, 0 => f x :: xs
  | x :: xs, n + 1 => x :: modifyIdx xs n f

/-- `AutomatonBuilder::add_transition`; `none` models the fatal `panic!`
on an out-of-bounds state index. -/
def AutomatonBuilder.add_transition (b : AutomatonBuilder Sym)
    (f t : Nat) (symbols : Sym × Sym) : Option (AutomatonBuilder Sym) :=
  if b.states.length ≤ f then none
  else if b.states.length ≤ t then none
  else some ⟨modifyIdx b.states f
    (fun st => { st with transitions := st.transitions ++ [(symbols, t)] })⟩

/-- `AutomatonBuilder::build`. -/
def AutomatonBuilder.build (b : AutomatonBuilder Sym) : Automaton Sym :=
  ⟨b.states, some START, false⟩

/-- The loop of `keyword_automaton`: for each symbol, add a state
(accepting iff it is the last symbol) and link the previous state to it. -/
def keywordLoop (b : AutomatonBuilder Sym) :
    List Sym → Option (AutomatonBuilder Sym)
  | [] => some b
  | s :: rest =>
    let p := b.add_state rest.isEmpty
    match p.1.add_transition (p.2 - 1) p.2 (s, s) with
    | some b2 => keywordLoop b2 rest
    | none => none

/-- `dfa.rs` `keyword_automaton` (the loop provably never panics, see
`keywordLoop_eq`). -/
def keyword_automaton (kw : List Sym) : Automaton Sym :=
  ((keywordLoop AutomatonBuilder.new kw).getD AutomatonBuilder.new).build

/-- `lexer.rs` `TokenKind` trait. -/
class TokenKind (K : Type) where
  unknown : K
  has_text : K → Bool

/-- `lexer.rs` `Token`. -/
structure Token (Sym K : Type) where
  kind : K
  text : Option (List Sym)
deriving DecidableEq

/-- `Token::new`: keep the text iff the kind declares `has_text`. -/
def Token.new [TokenKind K] (kind : K) (text : List Sym) : Token Sym K :=
  ⟨kind, if TokenKind.has_text kind then some text else none⟩

/-- `lexer.rs` `Lexer`. -/
structure Lexer (Sym K : Type) where
  automata : List (Automaton Sym × K)
  active_automata : List Nat
  token_text : List Sym

/-- `Lexer::new`. -/
def Lexer.new (automata : List (Automaton Sym × K)) : Lexer Sym K :=
  ⟨automata, List.range automata.length, []⟩

/-- `self.automata[i].0.is_alive()` (false off the end; the Rust code only
indexes in bounds). -/
def aliveAt (autos : List (Automaton Sym × K)) (i : Nat) : Bool :=
  match autos.get? i with
  | some ak => ak.1.is_alive
  | none => false

/-- `self.automata[i].0.is_previous_accepting()`. -/
def prevAcceptingAt (autos : List (Automaton Sym × K)) (i : Nat) : Bool :=
  match autos.get? i with
  | some ak => ak.1.is_previous_accepting
  | none => false

/-- The transition loop of `Lexer::step`: feed `symbol` to each active
automaton in turn while accumulating `any_alive`. -/
def feedActive [LinearOrder Sym] (autos : List (Automaton Sym × K))
    (active : List Nat) (symbol : Option Sym) :
    List (Automaton Sym × K) × Bool :=
  active.foldl
    (fun acc idx =>
      let autos2 := modifyIdx acc.1 idx (fun ak => (ak.1.transition symbol, ak.2))
      (autos2, acc.2 || aliveAt autos2 idx))
    (autos, false)

/-- Token kind of the automaton at a found index (`token_kind` read in the
scan loop of `Lexer::step`; `unknown` when no index was found). -/
def kindAtIdx [TokenKind K] (autos : List (Automaton Sym × K))
    (oi : Option Nat) : K :=
  match oi with
  | some idx =>
    match autos.get? idx with
    | some ak => ak.2
    | none => TokenKind.unknown
  | none => TokenKind.unknown

/-- `Lexer::step`, emitting the chosen kind together with the raw consumed
text (the text that Rust hands to `Token::new`). -/
def Lexer.stepT [LinearOrder Sym] [TokenKind K] (l : Lexer Sym K)
    (symbol : Option Sym) : Lexer Sym K × Option (K × List Sym) :=
  let active := l.active_automata.filter (fun idx => aliveAt l.automata idx)
  let fed := feedActive l.automata active symbol
  if fed.2 then
    ({ automata := fed.1, active_automata := active,
       token_text := l.token_text ++ symbol.toList }, none)
  else
    let kind := kindAtIdx fed.1 (active.find? (fun idx => prevAcceptingAt fed.1 idx))
    ({ automata := fed.1.map (fun ak => ((ak.1.reset).transition symbol, ak.2)),
       active_automata := List.range fed.1.length,
       token_text := symbol.toList },
     some (kind, l.token_text))

/-- `Lexer::step` proper: `Token::new` applied at the emission sites. -/
def Lexer.step [LinearOrder Sym] [TokenKind K] (l : Lexer Sym K)
    (symbol : Option Sym) : Lexer Sym K × Option (Token Sym K) :=
  let r := l.stepT symbol
  (r.1, r.2.map (fun kt => Token.new kt.1 kt.2))

/-- Run of `stepT` over a whole symbol stream (final lexer and all
emitted (kind, text) pairs in order). -/
def Lexer.lexT [LinearOrder Sym] [TokenKind K] (l : Lexer Sym K) :
    List (Option Sym) → Lexer Sym K × List (K × List Sym)
  | [] => (l, [])
  | s :: rest =>
    let r := l.stepT s
    let rr := Lexer.lexT r.1 rest
    (rr.1, r.2.toList ++ rr.2)

/-- `Lexer::lex` unrolled into an accumulating run (`flat_map` over
`step`). -/
def Lexer.lexAux [LinearOrder Sym] [TokenKind K] (l : Lexer Sym K) :
    List (Option Sym) → Lexer Sym K × List (Token Sym K)
  | [] => (l, [])
  | s :: rest =>
    let r := l.step s
    let rr := Lexer.lexAux r.1 rest
    (rr.1, r.2.toList ++ rr.2)

/-- `Lexer::lex`: the emitted token sequence. -/
def Lexer.lex [LinearOrder Sym] [TokenKind K] (l : Lexer Sym K)
    (symbols : List (Option Sym)) : List (Token Sym K) :=
  (l.lexAux symbols).2

/-! ### Reference notions used to state the specification claims. -/

/-- Feed a list of real symbols to one automaton. -/
def feed [LinearOrder Sym] (a : Automaton Sym) (q : List Sym) : Automaton Sym :=
  q.foldl (fun a s => a.transition (some s)) a

/-- Feed a list of optional symbols (real symbols and/or sentinels). -/
def feedO [LinearOrder Sym] (a : Automaton Sym) (q : List (Option Sym)) :
    Automaton Sym :=
  q.foldl Automaton.transition a

/-- The automaton currently sits in an accepting state. -/
def isAcceptingState (a : Automaton Sym) : Bool :=
  (a.current_state.map
    (fun idx => (a.states.getD idx (State.new false)).accepting)).getD false

/-- Some registered automaton is alive after being fed `q` from its
registered state. -/
def anyAliveP [LinearOrder Sym] (A0 : List (Automaton Sym × K))
    (q : List Sym) : Bool :=
  A0.any (fun ak => (feed ak.1 q).is_alive)

/-- Some registered automaton survives one more step `s` after `p`. -/
def anyAliveNext [LinearOrder Sym] (A0 : List (Automaton Sym × K))
    (p : List Sym) (s : Option Sym) : Bool :=
  A0.any (fun ak => ((feed ak.1 p).transition s).is_alive)

/-- Token kind selected at a boundary whose consumed text is `p`: the
earliest-registered automaton left in an accepting state, else Unknown. -/
def selectKind [LinearOrder Sym] [TokenKind K] (A0 : List (Automaton Sym × K))
    (p : List Sym) : K :=
  match A0.find? (fun ak => isAcceptingState (feed ak.1 p)) with
  | some ak => ak.2
  | none => TokenKind.unknown

/-- Reference tokenizer: the (kind, consumed text) stream the lexer
produces, with `p` the pending text (see `lexT_eq_tokensFrom`). -/
def tokensFrom [LinearOrder Sym] [TokenKind K] (A0 : List (Automaton Sym × K)) :
    List Sym → List (Option Sym) → List (K × List Sym)
  | _, [] => []
  | p, s :: rest =>
    if anyAliveNext A0 p s then tokensFrom A0 (p ++ s.toList) rest
    else (selectKind A0 p, p) :: tokensFrom A0 s.toList rest

/-! ### Basic lemmas about automata. -/

theorem transition_states [LinearOrder Sym] (a : Automaton Sym) (s : Option Sym) :
    (a.transition s).states = a.states := rfl

theorem transition_prev [LinearOrder Sym] (a : Automaton Sym) (s : Option Sym) :
    (a.transition s).previous_accepting = isAcceptingState a := rfl

theorem feed_nil [LinearOrder Sym] (a : Automaton Sym) : feed a [] = a := rfl

theorem feed_cons [LinearOrder Sym] (a : Automaton Sym) (x : Sym) (q : List Sym) :
    feed a (x :: q) = feed (a.transition (some x)) q := rfl

theorem feed_append [LinearOrder Sym] (a : Automaton Sym) (q r : List Sym) :
    feed a (q ++ r) = feed (feed a q) r := by
  simp [feed, List.foldl_append]

theorem feed_states [LinearOrder Sym] (a : Automaton Sym) (q : List Sym) :
    (feed a q).states = a.states := by
  induction q generalizing a with
  | nil => rfl
  | cons x q ih => rw [feed_cons, ih, transition_states]

theorem feedO_states [LinearOrder Sym] (a : Automaton Sym) (q : List (Option Sym)) :
    (feedO a q).states = a.states := by
  induction q generalizing a with
  | nil => rfl
  | cons x q ih =>
    show (feedO (a.transition x) q).states = a.states
    rw [ih, transition_states]

theorem transition_dead [LinearOrder Sym] {a : Automaton Sym}
    (h : a.current_state = none) (s : Option Sym) :
    (a.transition s).current_state = none := by
  simp [Automaton.transition, h]

theorem transition_none_dead [LinearOrder Sym] (a : Automaton Sym) :
    (a.transition none).current_state = none := by
  cases h : a.current_state <;> simp [Automaton.transition, h, State.transition]

theorem feed_dead [LinearOrder Sym] {a : Automaton Sym}
    (h : a.current_state = none) (q : List Sym) :
    (feed a q).current_state = none := by
  induction q generalizing a with
  | nil => exact h
  | cons x q ih => rw [feed_cons]; exact ih (transition_dead h _)

theorem alive_of_transition_alive [LinearOrder Sym] {a : Automaton Sym}
    {s : Option Sym} (h : (a.transition s).is_alive = true) :
    a.is_alive = true := by
  by_contra hc
  have hd : a.current_state = none := by
    cases hcur : a.current_state with
    | none => rfl
    | some i => exact absurd (by simp [Automaton.is_alive, hcur]) hc
  rw [Automaton.is_alive, transition_dead hd] at h
  simp at h

theorem alive_of_feed_append_alive [LinearOrder Sym] {a : Automaton Sym}
    {q r : List Sym} (h : (feed a (q ++ r)).is_alive = true) :
    (feed a q).is_alive = true := by
  by_contra hc
  have hd : (feed a q).current_state = none := by
    cases hcur : (feed a q).current_state with
    | none => rfl
    | some i => exact absurd (by simp [Automaton.is_alive, hcur]) hc
  rw [feed_append, Automaton.is_alive, feed_dead hd] at h
  simp at h

theorem isAccepting_alive {a : Automaton Sym}
    (h : isAcceptingState a = true) : a.is_alive = true := by
  cases hcur : a.current_state with
  | none => rw [isAcceptingState, hcur] at h; simp at h
  | some i => simp [Automaton.is_alive, hcur]

/-- Observational equality: same topology, same current state (the
`previous_accepting` snapshot is allowed to differ). -/
def obsEq (a b : Automaton Sym) : Prop :=
  a.states = b.states ∧ a.current_state = b.current_state

theorem obsEq_refl (a : Automaton Sym) : obsEq a a := ⟨rfl, rfl⟩

theorem obsEq_transition [LinearOrder Sym] {a b : Automaton Sym}
    (h : obsEq a b) (s : Option Sym) :
    obsEq (a.transition s) (b.transition s) := by
  obtain ⟨h1, h2⟩ := h
  constructor
  · simp [Automaton.transition]; exact h1
  · simp only [Automaton.transition, h1, h2]

theorem obsEq_transition_prev [LinearOrder Sym] {a b : Automaton Sym}
    (h : obsEq a b) (s : Option Sym) :
    (a.transition s).previous_accepting = (b.transition s).previous_accepting := by
  obtain ⟨h1, h2⟩ := h
  simp only [Automaton.transition, h1, h2]

theorem obsEq_alive {a b : Automaton Sym} (h : obsEq a b) :
    a.is_alive = b.is_alive := by
  rw [Automaton.is_alive, Automaton.is_alive, h.2]

theorem obsEq_isAccepting {a b : Automaton Sym} (h : obsEq a b) :
    isAcceptingState a = isAcceptingState b := by
  rw [isAcceptingState, isAcceptingState, h.1, h.2]

theorem obsEq_feed [LinearOrder Sym] {a b : Automaton Sym}
    (h : obsEq a b) (q : List Sym) : obsEq (feed a q) (feed b q) := by
  induction q generalizing a b with
  | nil => exact h
  | cons x q ih => rw [feed_cons, feed_cons]; exact ih (obsEq_transition h _)

/-! ### Lemmas about `modifyIdx`. -/

theorem modifyIdx_length (l : List α) (i : Nat) (f : α → α) :
    (modifyIdx l i f).length = l.length := by
  induction l generalizing i with
  | nil => rfl
  | cons x xs ih =>
    cases i with
    | zero => rfl
    | succ n => simp [modifyIdx, ih]

theorem modifyIdx_get?_eq (l : List α) (i : Nat) (f : α → α) :
    (modifyIdx l i f).get? i = (l.get? i).map f := by
  induction l generalizing i with
  | nil => simp [modifyIdx]
  | cons x xs ih =>
    cases i with
    | zero => rfl
    | succ n => simpa [modifyIdx] using ih n

theorem modifyIdx_get?_ne (l : List α) {i j : Nat} (h : j ≠ i) (f : α → α) :
    (modifyIdx l i f).get? j = l.get? j := by
  induction l generalizing i j with
  | nil => rfl
  | cons x xs ih =>
    cases i with
    | zero =>
      cases j with
      | zero => exact absurd rfl h
      | succ m => rfl
    | succ n =>
      cases j with
      | zero => rfl
      | succ m =>
        have hmn : m ≠ n := fun hc => h (by rw [hc])
        simpa [modifyIdx] using ih hmn

/-! ### Decomposition of the lexer's transition loop. -/

/-- The list part of `feedActive`: transition the automata at the listed
indices. -/
def applyActive [LinearOrder Sym] (autos : List (Automaton Sym × K))
    (active : List Nat) (s : Option Sym) : List (Automaton Sym × K) :=
  active.foldl
    (fun acc idx => modifyIdx acc idx (fun ak => (ak.1.transition s, ak.2)))
    autos

theorem applyActive_length [LinearOrder Sym] (autos : List (Automaton Sym × K))
    (active : List Nat) (s : Option Sym) :
    (applyActive autos active s).length = autos.length := by
  induction active generalizing autos with
  | nil => rfl
  | cons i rest ih =>
    show (applyActive (modifyIdx autos i _) rest s).length = _
    rw [ih, modifyIdx_length]

theorem applyActive_get?_notMem [LinearOrder Sym]
    (autos : List (Automaton Sym × K)) {active : List Nat} {i : Nat}
    (h : i ∉ active) (s : Option Sym) :
    (applyActive autos active s).get? i = autos.get? i := by
  induction active generalizing autos with
  | nil => rfl
  | cons j rest ih =>
    have hij : i ≠ j := fun hc => h (hc ▸ List.mem_cons_self j rest)
    have hr : i ∉ rest := fun hc => h (List.mem_cons_of_mem j hc)
    show (applyActive (modifyIdx autos j _) rest s).get? i = _
    rw [ih _ hr, modifyIdx_get?_ne _ hij]

theorem applyActive_get?_mem [LinearOrder Sym]
    (autos : List (Automaton Sym × K)) {active : List Nat} {i : Nat}
    (hnd : active.Nodup) (h : i ∈ active) (s : Option Sym) :
    (applyActive autos active s).get? i
      = (autos.get? i).map (fun ak => (ak.1.transition s, ak.2)) := by
  induction active generalizing autos with
  | nil => cases h
  | cons j rest ih =>
    have hndr : rest.Nodup := (List.nodup_cons.mp hnd).2
    show (applyActive (modifyIdx autos j _) rest s).get? i = _
    rcases List.mem_cons.mp h with hij | hr
    · have hjr : j ∉ rest := (List.nodup_cons.mp hnd).1
      rw [hij, applyActive_get?_notMem _ hjr, modifyIdx_get?_eq]
    · have hij : i ≠ j := by
        rintro rfl
        exact (List.nodup_cons.mp hnd).1 hr
      rw [ih _ hndr hr, modifyIdx_get?_ne _ hij]

theorem feedActive_go [LinearOrder Sym] (s : Option Sym)
    (active : List Nat) (autos : List (Automaton Sym × K)) (b : Bool)
    (hnd : active.Nodup) :
    active.foldl
      (fun acc idx =>
        let autos2 := modifyIdx acc.1 idx (fun ak => (ak.1.transition s, ak.2))
        (autos2, acc.2 || aliveAt autos2 idx))
      (autos, b)
    = (applyActive autos active s,
       b || active.any (fun i => aliveAt (applyActive autos active s) i)) := by
  induction active generalizing autos b with
  | nil => simp [applyActive]
  | cons j rest ih =>
    have hndr : rest.Nodup := (List.nodup_cons.mp hnd).2
    have hjr : j ∉ rest := (List.nodup_cons.mp hnd).1
    have halive : aliveAt (modifyIdx autos j (fun ak => (ak.1.transition s, ak.2))) j
        = aliveAt (applyActive (modifyIdx autos j (fun ak => (ak.1.transition s, ak.2))) rest s) j := by
      rw [aliveAt, aliveAt, applyActive_get?_notMem _ hjr]
    show List.foldl _ (modifyIdx autos j _, b || aliveAt (modifyIdx autos j _) j) rest = _
    rw [ih _ _ hndr]
    show (applyActive (modifyIdx autos j _) rest s, _) = _
    have hfst : applyActive (modifyIdx autos j (fun ak => (ak.1.transition s, ak.2))) rest s
        = applyActive autos (j :: rest) s := rfl
    rw [hfst]
    congr 1
    rw [List.any_cons]
    rw [← hfst, ← halive, Bool.or_assoc]

theorem feedActive_eq [LinearOrder Sym] (autos : List (Automaton Sym × K))
    (active : List Nat) (s : Option Sym) (hnd : active.Nodup) :
    feedActive autos active s
    = (applyActive autos active s,
       active.any (fun i => aliveAt (applyActive autos active s) i)) := by
  rw [feedActive, feedActive_go s active autos false hnd, Bool.false_or]

/-! ### `find?` helper lemmas. -/

/-- Predicate on the `i`-th list element (false off the end). -/
def atIdx (l : List α) (f : α → Bool) (i : Nat) : Bool :=
  match l.get? i with
  | some x => f x
  | none => false

theorem find?_filter_eq (l : List α) (q pr : α → Bool) :
    (l.filter q).find? pr = l.find? (fun x => q x && pr x) := by
  induction l with
  | nil => rfl
  | cons x xs ih =>
    rw [List.filter_cons]
    by_cases hq : q x = true
    · rw [if_pos hq, List.find?_cons, List.find?_cons]
      cases hpr : pr x
      · simp only [hq, Bool.true_and, hpr, ih]
      · simp only [hq, Bool.true_and, hpr]
    · have hq' : q x = false := by simpa using hq
      rw [if_neg (by simp [hq']), List.find?_cons (a := x) (p := fun x => q x && pr x)]
      simp only [hq', Bool.false_and, ih]

theorem find?_congr_mem {l : List α} {p q : α → Bool}
    (h : ∀ x ∈ l, p x = q x) : l.find? p = l.find? q := by
  induction l with
  | nil => rfl
  | cons x xs ih =>
    rw [List.find?_cons, List.find?_cons, h x (List.mem_cons_self x xs),
      ih (fun y hy => h y (List.mem_cons_of_mem x hy))]

theorem range_find?_bind (l : List α) (pe : α → Bool) :
    ((List.range l.length).find? (atIdx l pe)).bind l.get? = l.find? pe := by
  induction l with
  | nil => rfl
  | cons x xs ih =>
    rw [List.length_cons, List.range_succ_eq_map, List.find?_cons]
    cases hx : pe x with
    | true =>
      have hpred : atIdx (x :: xs) pe 0 = true := by simpa [atIdx] using hx
      rw [hpred]
      simp [List.find?_cons, hx]
    | false =>
      have hpred : atIdx (x :: xs) pe 0 = false := by simpa [atIdx] using hx
      rw [hpred]
      rw [List.find?_map]
      have hcomp : (atIdx (x :: xs) pe ∘ Nat.succ) = atIdx xs pe := by
        funext i; rfl
      rw [hcomp]
      rw [List.find?_cons, hx]
      rw [← ih]
      cases hf : (List.range xs.length).find? (atIdx xs pe) with
      | none => rfl
      | some j => rfl

/-! ### The scan invariant. -/

theorem range_any_elem (l : List α) (pe : α → Bool) :
    (List.range l.length).any (atIdx l pe) = l.any pe := by
  rw [Bool.eq_iff_iff, List.any_eq_true, List.any_eq_true]
  constructor
  · rintro ⟨i, _, hp⟩
    cases hx : l.get? i with
    | none => rw [atIdx, hx] at hp; cases hp
    | some x => exact ⟨x, List.get?_mem hx, by rwa [atIdx, hx] at hp⟩
  · rintro ⟨x, hx, hp⟩
    obtain ⟨i, hi⟩ := List.mem_iff_get?.mp hx
    have hlt : i < l.length := by
      by_contra hc
      rw [List.get?_len_le (Nat.le_of_not_lt hc)] at hi
      cases hi
    exact ⟨i, List.mem_range.mpr hlt, by rw [atIdx, hi]; exact hp⟩

theorem get?_some_of_lt {l : List α} {i : Nat} (h : i < l.length) :
    ∃ x, l.get? i = some x := by
  cases hx : l.get? i with
  | none => exact absurd (List.get?_eq_none.mp hx) (Nat.not_le_of_lt h)
  | some x => exact ⟨x, rfl⟩

theorem is_alive_false_iff (a : Automaton Sym) :
    a.is_alive = false ↔ a.current_state = none := by
  rw [Automaton.is_alive]
  cases a.current_state <;> simp

theorem any_congr_mem {l : List α} {p q : α → Bool}
    (h : ∀ x ∈ l, p x = q x) : l.any p = l.any q := by
  induction l with
  | nil => rfl
  | cons x xs ih =>
    rw [List.any_cons, List.any_cons, h x (List.mem_cons_self x xs),
      ih (fun y hy => h y (List.mem_cons_of_mem x hy))]

theorem anyAliveNext_none [LinearOrder Sym] (A0 : List (Automaton Sym × K))
    (p : List Sym) : anyAliveNext A0 p none = false := by
  rw [anyAliveNext]
  rw [List.any_eq_false]
  intro ak _
  rw [Automaton.is_alive, transition_none_dead]
  simp

/-- `aliveIdx A0 q i`: the `i`-th registered automaton is alive after
being fed `q`. -/
def aliveIdx [LinearOrder Sym] (A0 : List (Automaton Sym × K))
    (q : List Sym) (i : Nat) : Bool :=
  atIdx A0 (fun ak => (feed ak.1 q).is_alive) i

/-- `i`-th registered automaton survives one more step `s` after `p`. -/
def nextAliveIdx [LinearOrder Sym] (A0 : List (Automaton Sym × K))
    (p : List Sym) (s : Option Sym) (i : Nat) : Bool :=
  atIdx A0 (fun ak => ((feed ak.1 p).transition s).is_alive) i

theorem aliveIdx_dropLast_of [LinearOrder Sym] {A0 : List (Automaton Sym × K)}
    {q : List Sym} {i : Nat} (h : aliveIdx A0 q i = true) :
    aliveIdx A0 q.dropLast i = true := by
  cases hA : A0.get? i with
  | none =>
    simp only [aliveIdx, atIdx, hA] at h
    exact Bool.noConfusion h
  | some ak =>
    simp only [aliveIdx, atIdx, hA] at h ⊢
    by_cases hq : q = []
    · subst hq; simpa using h
    · have hd := List.dropLast_append_getLast hq
      rw [← hd] at h
      exact alive_of_feed_append_alive h

/-- Indices of automata alive after being fed `q`, in registration order. -/
def activeSet [LinearOrder Sym] (A0 : List (Automaton Sym × K))
    (q : List Sym) : List Nat :=
  (List.range A0.length).filter (aliveIdx A0 q)

theorem activeSet_nodup [LinearOrder Sym] (A0 : List (Automaton Sym × K))
    (q : List Sym) : (activeSet A0 q).Nodup :=
  (List.nodup_range A0.length).filter _

theorem mem_activeSet [LinearOrder Sym] {A0 : List (Automaton Sym × K)}
    {q : List Sym} {i : Nat} :
    i ∈ activeSet A0 q ↔ (i < A0.length ∧ aliveIdx A0 q i = true) := by
  rw [activeSet, List.mem_filter, List.mem_range]

/-- Observable projection of a registered (automaton, kind) pair. -/
def proj3 (ak : Automaton Sym × K) : List (State Sym) × Option Nat × K :=
  (ak.1.states, ak.1.current_state, ak.2)

/-- Mid-scan invariant tying the lexer state to the registered automata
`A0` and the pending text `p`. -/
structure LexInv [LinearOrder Sym] (A0 : List (Automaton Sym × K))
    (p : List Sym) (l : Lexer Sym K) : Prop where
  length_eq : l.automata.length = A0.length
  obs : ∀ i, (l.automata.get? i).map proj3
      = (A0.get? i).map (fun ak => proj3 (feed ak.1 p, ak.2))
  text_eq : l.token_text = p
  active_eq : l.active_automata = activeSet A0 p.dropLast

theorem LexInv.get?_none [LinearOrder Sym] {A0 : List (Automaton Sym × K)}
    {p : List Sym} {l : Lexer Sym K} (h : LexInv A0 p l) {i : Nat}
    (hA : A0.get? i = none) : l.automata.get? i = none := by
  have h2 := h.obs i
  rw [hA] at h2
  simpa [Option.map_eq_none'] using h2

theorem LexInv.get?_some [LinearOrder Sym] {A0 : List (Automaton Sym × K)}
    {p : List Sym} {l : Lexer Sym K} (h : LexInv A0 p l) {i : Nat}
    {ak : Automaton Sym × K} (hA : A0.get? i = some ak) :
    ∃ bk, l.automata.get? i = some bk
      ∧ bk.1.states = (feed ak.1 p).states
      ∧ bk.1.current_state = (feed ak.1 p).current_state
      ∧ bk.2 = ak.2 := by
  have h2 := h.obs i
  rw [hA] at h2
  cases hl : l.automata.get? i with
  | none => rw [hl] at h2; cases h2
  | some bk =>
    rw [hl] at h2
    simp only [Option.map_some', Option.some.injEq, proj3, Prod.mk.injEq] at h2
    exact ⟨bk, rfl, h2.1, h2.2.1, h2.2.2⟩

theorem LexInv.aliveAt_eq [LinearOrder Sym] {A0 : List (Automaton Sym × K)}
    {p : List Sym} {l : Lexer Sym K} (h : LexInv A0 p l) (i : Nat) :
    aliveAt l.automata i = aliveIdx A0 p i := by
  cases hA : A0.get? i with
  | none => rw [aliveAt, h.get?_none hA]; simp only [aliveIdx, atIdx, hA]
  | some ak =>
    obtain ⟨bk, hl, _, hc, _⟩ := h.get?_some hA
    rw [aliveAt, hl]
    simp only [aliveIdx, atIdx, hA]
    show bk.1.is_alive = (feed ak.1 p).is_alive
    rw [Automaton.is_alive, Automaton.is_alive, hc]

theorem LexInv.active_filter_eq [LinearOrder Sym] {A0 : List (Automaton Sym × K)}
    {p : List Sym} {l : Lexer Sym K} (h : LexInv A0 p l) :
    l.active_automata.filter (fun idx => aliveAt l.automata idx)
      = activeSet A0 p := by
  rw [h.active_eq, activeSet, activeSet, List.filter_filter]
  apply List.filter_congr
  intro i _
  rw [h.aliveAt_eq i]
  cases hap : aliveIdx A0 p i
  · simp
  · rw [aliveIdx_dropLast_of hap, Bool.and_true]

theorem kindAtIdx_eq_elim [TokenKind K] (autos : List (Automaton Sym × K))
    (oi : Option Nat) :
    kindAtIdx autos oi
      = (oi.bind autos.get?).elim TokenKind.unknown (fun ak => ak.2) := by
  cases oi with
  | none => rfl
  | some idx =>
    show kindAtIdx autos (some idx)
      = (autos.get? idx).elim TokenKind.unknown (fun ak => ak.2)
    cases h : autos.get? idx with
    | none => simp only [kindAtIdx, h]; rfl
    | some ak => simp only [kindAtIdx, h]; rfl

theorem selectKind_eq_elim [LinearOrder Sym] [TokenKind K]
    (A0 : List (Automaton Sym × K)) (p : List Sym) :
    selectKind A0 p
      = (A0.find? (fun ak => isAcceptingState (feed ak.1 p))).elim
          TokenKind.unknown (fun ak => ak.2) := by
  rw [selectKind]
  cases A0.find? (fun ak => isAcceptingState (feed ak.1 p)) <;> rfl

theorem find?_activeSet_eq [LinearOrder Sym] (A0 : List (Automaton Sym × K))
    (q : List Sym) (pr : Nat → Bool) :
    (activeSet A0 q).find? pr
      = (List.range A0.length).find? (fun i => aliveIdx A0 q i && pr i) := by
  rw [activeSet, find?_filter_eq]

theorem stepT_spec [LinearOrder Sym] [TokenKind K] {A0 : List (Automaton Sym × K)}
    {p : List Sym} {l : Lexer Sym K}
    (hF : ∀ ak ∈ A0, ak.1.current_state = some START)
    (hInv : LexInv A0 p l) (s : Option Sym) :
    (anyAliveNext A0 p s = true →
      (l.stepT s).2 = none
      ∧ ∀ sym, s = some sym → LexInv A0 (p ++ [sym]) (l.stepT s).1)
    ∧ (anyAliveNext A0 p s = false →
      (l.stepT s).2 = some (selectKind A0 p, p)
      ∧ ∀ sym, s = some sym → LexInv A0 [sym] (l.stepT s).1) := by
  have hact := hInv.active_filter_eq
  have hfa := feedActive_eq l.automata (activeSet A0 p) s (activeSet_nodup A0 p)
  have hfinmem : ∀ i ∈ activeSet A0 p,
      (applyActive l.automata (activeSet A0 p) s).get? i
        = (l.automata.get? i).map (fun ak => (ak.1.transition s, ak.2)) :=
    fun i hi => applyActive_get?_mem _ (activeSet_nodup A0 p) hi s
  have hfinnotmem : ∀ i, i ∉ activeSet A0 p →
      (applyActive l.automata (activeSet A0 p) s).get? i = l.automata.get? i :=
    fun i hi => applyActive_get?_notMem _ hi s
  have hfinlen : (applyActive l.automata (activeSet A0 p) s).length = A0.length := by
    rw [applyActive_length, hInv.length_eq]
  have hAlive : ∀ i ∈ activeSet A0 p,
      aliveAt (applyActive l.automata (activeSet A0 p) s) i = nextAliveIdx A0 p s i := by
    intro i hi
    obtain ⟨hilt, hal⟩ := mem_activeSet.mp hi
    obtain ⟨ak, hA⟩ := get?_some_of_lt hilt
    obtain ⟨bk, hl, hs', hc, hk⟩ := hInv.get?_some hA
    rw [aliveAt, hfinmem i hi, hl, Option.map_some']
    simp only [nextAliveIdx, atIdx, hA]
    show (bk.1.transition s).is_alive = ((feed ak.1 p).transition s).is_alive
    exact obsEq_alive (obsEq_transition ⟨hs', hc⟩ s)
  have hany : (activeSet A0 p).any
      (fun i => aliveAt (applyActive l.automata (activeSet A0 p) s) i)
      = anyAliveNext A0 p s := by
    rw [any_congr_mem hAlive]
    rw [show activeSet A0 p = (List.range A0.length).filter (aliveIdx A0 p) from rfl]
    rw [List.any_filter]
    have hpt : ∀ i ∈ List.range A0.length,
        (aliveIdx A0 p i && nextAliveIdx A0 p s i) = nextAliveIdx A0 p s i := by
      intro i _
      cases hna : nextAliveIdx A0 p s i with
      | false => rw [Bool.and_false]
      | true =>
        have hal : aliveIdx A0 p i = true := by
          cases hA : A0.get? i with
          | none =>
            simp only [nextAliveIdx, atIdx, hA] at hna
            exact Bool.noConfusion hna
          | some ak =>
            simp only [nextAliveIdx, atIdx, hA] at hna
            simp only [aliveIdx, atIdx, hA]
            exact alive_of_transition_alive hna
        rw [hal]
        rfl
    rw [any_congr_mem hpt]
    exact range_any_elem A0 (fun ak => ((feed ak.1 p).transition s).is_alive)
  -- The per-index observation of the post-transition automata list for
  -- the re-entrant branch: states and kind are unchanged.
  have hstk : ∀ i (ak : Automaton Sym × K), A0.get? i = some ak →
      ∃ ck, (applyActive l.automata (activeSet A0 p) s).get? i = some ck
        ∧ ck.1.states = ak.1.states ∧ ck.2 = ak.2 := by
    intro i ak hA
    obtain ⟨bk, hl, hs', hc, hk⟩ := hInv.get?_some hA
    by_cases hia : i ∈ activeSet A0 p
    · rw [hfinmem i hia, hl, Option.map_some']
      refine ⟨(bk.1.transition s, bk.2), rfl, ?_, hk⟩
      rw [transition_states, hs', feed_states]
    · rw [hfinnotmem i hia, hl]
      refine ⟨bk, rfl, ?_, hk⟩
      rw [hs', feed_states]
  constructor
  · intro hTrue
    have hstep : l.stepT s =
        ({ automata := applyActive l.automata (activeSet A0 p) s,
           active_automata := activeSet A0 p,
           token_text := l.token_text ++ s.toList }, none) := by
      simp only [Lexer.stepT, hact, hfa, hany, hTrue, if_true]
    refine ⟨by rw [hstep], ?_⟩
    rintro sym rfl
    rw [hstep]
    refine ⟨hfinlen, ?_, ?_, ?_⟩
    · intro i
      show ((applyActive l.automata (activeSet A0 p) (some sym)).get? i).map proj3
        = (A0.get? i).map (fun ak => proj3 (feed ak.1 (p ++ [sym]), ak.2))
      by_cases hilt : i < A0.length
      · obtain ⟨ak, hA⟩ := get?_some_of_lt hilt
        obtain ⟨bk, hl, hs', hc, hk⟩ := hInv.get?_some hA
        have hfeed : feed ak.1 (p ++ [sym]) = (feed ak.1 p).transition (some sym) := by
          rw [feed_append]; rfl
        by_cases hia : i ∈ activeSet A0 p
        · rw [hfinmem i hia, hl, Option.map_some', Option.map_some', hA,
            Option.map_some']
          have hobs := obsEq_transition (a := bk.1) (b := feed ak.1 p) ⟨hs', hc⟩ (some sym)
          simp only [proj3, Option.some.injEq, Prod.mk.injEq]
          exact ⟨by rw [hobs.1, ← hfeed], by rw [hobs.2, ← hfeed], hk⟩
        · have hal : aliveIdx A0 p i = false := by
            cases h' : aliveIdx A0 p i with
            | false => rfl
            | true => exact absurd (mem_activeSet.mpr ⟨hilt, h'⟩) hia
          have hdead : (feed ak.1 p).current_state = none := by
            apply (is_alive_false_iff _).mp
            simp only [aliveIdx, atIdx, hA] at hal
            exact hal
          have hd2 : (feed ak.1 (p ++ [sym])).current_state = none := by
            rw [hfeed]
            exact transition_dead hdead _
          rw [hfinnotmem i hia, hl, hA, Option.map_some', Option.map_some']
          simp only [proj3, Option.some.injEq, Prod.mk.injEq]
          refine ⟨?_, ?_, hk⟩
          · rw [hs', feed_states, feed_states]
          · rw [hc, hdead, hd2]
      · have hA : A0.get? i = none := List.get?_len_le (Nat.le_of_not_lt hilt)
        have hia : i ∉ activeSet A0 p := fun hc => absurd (mem_activeSet.mp hc).1 hilt
        rw [hfinnotmem i hia, hInv.get?_none hA, hA]
        rfl
    · show l.token_text ++ (some sym).toList = p ++ [sym]
      rw [hInv.text_eq]; rfl
    · show activeSet A0 p = activeSet A0 (p ++ [sym]).dropLast
      rw [List.dropLast_concat]
  · intro hFalse
    have hkind : kindAtIdx (applyActive l.automata (activeSet A0 p) s)
        ((activeSet A0 p).find?
          (fun idx => prevAcceptingAt (applyActive l.automata (activeSet A0 p) s) idx))
        = selectKind A0 p := by
      have hpa : ∀ i ∈ activeSet A0 p,
          prevAcceptingAt (applyActive l.automata (activeSet A0 p) s) i
            = atIdx A0 (fun ak => isAcceptingState (feed ak.1 p)) i := by
        intro i hi
        obtain ⟨hilt, hal⟩ := mem_activeSet.mp hi
        obtain ⟨ak, hA⟩ := get?_some_of_lt hilt
        obtain ⟨bk, hl, hs', hc, hk⟩ := hInv.get?_some hA
        rw [prevAcceptingAt, hfinmem i hi, hl, Option.map_some']
        simp only [atIdx, hA]
        show (bk.1.transition s).is_previous_accepting = isAcceptingState (feed ak.1 p)
        rw [Automaton.is_previous_accepting, transition_prev, obsEq_isAccepting ⟨hs', hc⟩]
      rw [find?_congr_mem hpa, find?_activeSet_eq]
      have hpt2 : ∀ i ∈ List.range A0.length,
          (aliveIdx A0 p i && atIdx A0 (fun ak => isAcceptingState (feed ak.1 p)) i)
            = atIdx A0 (fun ak => isAcceptingState (feed ak.1 p)) i := by
        intro i _
        cases hacc : atIdx A0 (fun ak => isAcceptingState (feed ak.1 p)) i with
        | false => rw [Bool.and_false]
        | true =>
          have hal : aliveIdx A0 p i = true := by
            cases hA : A0.get? i with
            | none =>
              simp only [atIdx, hA] at hacc
              exact Bool.noConfusion hacc
            | some ak =>
              simp only [atIdx, hA] at hacc
              simp only [aliveIdx, atIdx, hA]
              exact isAccepting_alive hacc
          rw [hal]
          rfl
      rw [find?_congr_mem hpt2]
      rw [kindAtIdx_eq_elim, selectKind_eq_elim]
      rw [← range_find?_bind A0 (fun ak => isAcceptingState (feed ak.1 p))]
      cases hf : (List.range A0.length).find?
          (atIdx A0 (fun ak => isAcceptingState (feed ak.1 p))) with
      | none => rfl
      | some idx =>
        show ((applyActive l.automata (activeSet A0 p) s).get? idx).elim
            TokenKind.unknown (fun ak => ak.2)
          = (A0.get? idx).elim TokenKind.unknown (fun ak => ak.2)
        by_cases hilt : idx < A0.length
        · obtain ⟨ak, hA⟩ := get?_some_of_lt hilt
          obtain ⟨ck, hfin, _, hk⟩ := hstk idx ak hA
          rw [hfin, hA]
          exact hk
        · have hA : A0.get? idx = none := List.get?_len_le (Nat.le_of_not_lt hilt)
          have hfin : (applyActive l.automata (activeSet A0 p) s).get? idx = none :=
            List.get?_len_le (by rw [hfinlen]; exact Nat.le_of_not_lt hilt)
          rw [hfin, hA]
    have hstep : l.stepT s =
        ({ automata := (applyActive l.automata (activeSet A0 p) s).map
             (fun ak => ((ak.1.reset).transition s, ak.2)),
           active_automata := List.range (applyActive l.automata (activeSet A0 p) s).length,
           token_text := s.toList },
         some (selectKind A0 p, p)) := by
      simp only [Lexer.stepT, hact, hfa, hany, hFalse, if_false, Bool.false_eq_true]
      rw [hkind, hInv.text_eq]
    refine ⟨by rw [hstep], ?_⟩
    rintro sym rfl
    rw [hstep]
    refine ⟨?_, ?_, rfl, ?_⟩
    · rw [List.length_map, hfinlen]
    · intro i
      show (((applyActive l.automata (activeSet A0 p) (some sym)).map
          (fun ak => ((ak.1.reset).transition (some sym), ak.2))).get? i).map proj3
        = (A0.get? i).map (fun ak => proj3 (feed ak.1 [sym], ak.2))
      rw [List.get?_map]
      by_cases hilt : i < A0.length
      · obtain ⟨ak, hA⟩ := get?_some_of_lt hilt
        obtain ⟨ck, hfin, hst, hk⟩ := hstk i ak hA
        rw [hfin, hA, Option.map_some', Option.map_some', Option.map_some']
        have hres : obsEq (ck.1.reset) ak.1 := by
          constructor
          · exact hst
          · show some START = ak.1.current_state
            rw [hF ak (List.get?_mem hA)]
        have hobs := obsEq_transition hres (some sym)
        simp only [proj3, Option.some.injEq, Prod.mk.injEq]
        exact ⟨hobs.1, hobs.2, hk⟩
      · have hA : A0.get? i = none := List.get?_len_le (Nat.le_of_not_lt hilt)
        have hfin : (applyActive l.automata (activeSet A0 p) (some sym)).get? i = none :=
          List.get?_len_le (by rw [hfinlen]; exact Nat.le_of_not_lt hilt)
        rw [hfin, hA]
        rfl
    · show List.range (applyActive l.automata (activeSet A0 p) (some sym)).length
        = activeSet A0 ([sym].dropLast)
      rw [hfinlen]
      show List.range A0.length = activeSet A0 []
      rw [activeSet]
      symm
      apply List.filter_eq_self.mpr
      intro i hi
      obtain ⟨ak, hA⟩ := get?_some_of_lt (List.mem_range.mp hi)
      simp only [aliveIdx, atIdx, hA]
      show ak.1.is_alive = true
      rw [Automaton.is_alive, hF ak (List.get?_mem hA)]
      rfl

theorem lexT_run [LinearOrder Sym] [TokenKind K] {A0 : List (Automaton Sym × K)}
    (hF : ∀ ak ∈ A0, ak.1.current_state = some START) (xs : List Sym) :
    ∀ (p : List Sym) (l : Lexer Sym K), LexInv A0 p l →
      (l.lexT (xs.map some ++ [none])).2 = tokensFrom A0 p (xs.map some ++ [none]) := by
  induction xs with
  | nil =>
    intro p l hInv
    have hfalse := anyAliveNext_none A0 p
    obtain ⟨hout, _⟩ := (stepT_spec hF hInv none).2 hfalse
    simp only [List.map_nil, List.nil_append]
    simp only [Lexer.lexT, hout, tokensFrom, hfalse]
    rfl
  | cons x xs ih =>
    intro p l hInv
    simp only [List.map_cons, List.cons_append]
    cases hA : anyAliveNext A0 p (some x) with
    | true =>
      obtain ⟨hout, hinv2⟩ := (stepT_spec hF hInv (some x)).1 hA
      simp only [Lexer.lexT, hout, Option.toList_none, List.nil_append]
      rw [ih (p ++ [x]) _ (hinv2 x rfl)]
      simp only [tokensFrom, hA]
      rfl
    | false =>
      obtain ⟨hout, hinv2⟩ := (stepT_spec hF hInv (some x)).2 hA
      simp only [Lexer.lexT, hout, Option.toList_some, List.singleton_append]
      rw [ih [x] _ (hinv2 x rfl)]
      simp only [tokensFrom, hA]
      rfl

theorem LexInv_new [LinearOrder Sym] [TokenKind K] {A0 : List (Automaton Sym × K)}
    (hF : ∀ ak ∈ A0, ak.1.current_state = some START) :
    LexInv A0 [] (Lexer.new A0) := by
  refine ⟨rfl, ?_, rfl, ?_⟩
  · intro i
    show (A0.get? i).map proj3 = (A0.get? i).map (fun ak => proj3 (feed ak.1 [], ak.2))
    cases A0.get? i <;> rfl
  · show List.range A0.length = activeSet A0 ([] : List Sym).dropLast
    rw [activeSet]
    symm
    apply List.filter_eq_self.mpr
    intro i hi
    obtain ⟨ak, hA⟩ := get?_some_of_lt (List.mem_range.mp hi)
    simp only [aliveIdx, atIdx, hA]
    show (feed ak.1 []).is_alive = true
    rw [feed_nil, Automaton.is_alive, hF ak (List.get?_mem hA)]
    rfl

/-- Master characterization of the scan: the (kind, consumed text) stream
of a full scan equals the reference tokenizer `tokensFrom`. -/
theorem lexT_eq_tokensFrom [LinearOrder Sym] [TokenKind K]
    {A0 : List (Automaton Sym × K)}
    (hF : ∀ ak ∈ A0, ak.1.current_state = some START) (xs : List Sym) :
    ((Lexer.new A0).lexT (xs.map some ++ [none])).2
      = tokensFrom A0 [] (xs.map some ++ [none]) :=
  lexT_run hF xs [] (Lexer.new A0) (LexInv_new hF)

/-! ### Greedy chunk decomposition of the reference tokenizer. -/

theorem anyAliveNext_eq_anyAliveP [LinearOrder Sym] (A0 : List (Automaton Sym × K))
    (p : List Sym) (x : Sym) :
    anyAliveNext A0 p (some x) = anyAliveP A0 (p ++ [x]) := by
  rw [anyAliveNext, anyAliveP]
  apply any_congr_mem
  intro ak _
  rw [feed_append]
  rfl

theorem anyAliveP_append [LinearOrder Sym] {A0 : List (Automaton Sym × K)}
    {q r : List Sym} (h : anyAliveP A0 (q ++ r) = true) :
    anyAliveP A0 q = true := by
  rw [anyAliveP, List.any_eq_true] at h ⊢
  obtain ⟨ak, hm, hal⟩ := h
  exact ⟨ak, hm, alive_of_feed_append_alive hal⟩

/-- The consumed symbol runs of the scan, with `p` the pending text. -/
def chunksFrom [LinearOrder Sym] (A0 : List (Automaton Sym × K)) :
    List Sym → List Sym → List (List Sym)
  | p, [] => [p]
  | p, x :: rest =>
    if anyAliveP A0 (p ++ [x]) then chunksFrom A0 (p ++ [x]) rest
    else p :: chunksFrom A0 [x] rest

/-- Runs of the scan restarted on the remaining input after a boundary. -/
def chunksTail [LinearOrder Sym] (A0 : List (Automaton Sym × K))
    (r : List Sym) : List (List Sym) :=
  match r with
  | [] => []
  | y :: rr => chunksFrom A0 [y] rr

/-- Length of the greedy munch: how many further symbols keep some
automaton alive, starting from pending text `p`. -/
def munchFrom [LinearOrder Sym] (A0 : List (Automaton Sym × K)) :
    List Sym → List Sym → Nat
  | _, [] => 0
  | p, x :: rest =>
    if anyAliveP A0 (p ++ [x]) then munchFrom A0 (p ++ [x]) rest + 1 else 0

theorem tokensFrom_eq_chunks [LinearOrder Sym] [TokenKind K]
    (A0 : List (Automaton Sym × K)) :
    ∀ (xs p : List Sym), tokensFrom A0 p (xs.map some ++ [none])
      = (chunksFrom A0 p xs).map (fun q => (selectKind A0 q, q)) := by
  intro xs
  induction xs with
  | nil =>
    intro p
    simp [tokensFrom, chunksFrom, anyAliveNext_none]
  | cons x xs ih =>
    intro p
    simp only [List.map_cons, List.cons_append, tokensFrom, chunksFrom,
      anyAliveNext_eq_anyAliveP]
    cases hA : anyAliveP A0 (p ++ [x]) with
    | true =>
      simp only [if_true]
      exact ih (p ++ [x])
    | false =>
      simp only [Bool.false_eq_true, if_false, List.map_cons]
      show (selectKind A0 p, p) :: tokensFrom A0 [x] (List.map some xs ++ [none])
        = (selectKind A0 p, p)
          :: List.map (fun q => (selectKind A0 q, q)) (chunksFrom A0 [x] xs)
      rw [ih [x]]

theorem chunksFrom_flatten [LinearOrder Sym] (A0 : List (Automaton Sym × K)) :
    ∀ (xs p : List Sym), (chunksFrom A0 p xs).flatten = p ++ xs := by
  intro xs
  induction xs with
  | nil => intro p; simp [chunksFrom]
  | cons x xs ih =>
    intro p
    cases hA : anyAliveP A0 (p ++ [x]) with
    | true =>
      simp only [chunksFrom, hA, if_true]
      rw [ih (p ++ [x])]
      simp
    | false =>
      simp only [chunksFrom, hA, Bool.false_eq_true, if_false]
      rw [List.flatten_cons, ih [x]]
      rfl

theorem chunksFrom_ne_nil [LinearOrder Sym] (A0 : List (Automaton Sym × K)) :
    ∀ (xs p : List Sym), chunksFrom A0 p xs ≠ [] := by
  intro xs
  induction xs with
  | nil => intro p; simp [chunksFrom]
  | cons x xs ih =>
    intro p
    cases hA : anyAliveP A0 (p ++ [x]) with
    | true => simpa only [chunksFrom, hA, if_true] using ih (p ++ [x])
    | false => simp [chunksFrom, hA]

theorem chunksFrom_head [LinearOrder Sym] (A0 : List (Automaton Sym × K)) :
    ∀ (xs p : List Sym),
      chunksFrom A0 p xs
        = (p ++ xs.take (munchFrom A0 p xs))
          :: chunksTail A0 (xs.drop (munchFrom A0 p xs)) := by
  intro xs
  induction xs with
  | nil =>
    intro p
    simp [chunksFrom, munchFrom, chunksTail]
  | cons x xs ih =>
    intro p
    cases hA : anyAliveP A0 (p ++ [x]) with
    | true =>
      simp only [chunksFrom, munchFrom, hA, if_true]
      rw [ih (p ++ [x])]
      rw [List.take_succ_cons, List.drop_succ_cons]
      simp [List.append_assoc]
    | false =>
      simp only [chunksFrom, munchFrom, hA, Bool.false_eq_true, if_false]
      simp [chunksTail]

/-! ### Properties of the greedy munch length. -/

theorem munchFrom_le [LinearOrder Sym] (A0 : List (Automaton Sym × K)) :
    ∀ (xs p : List Sym), munchFrom A0 p xs ≤ xs.length := by
  intro xs
  induction xs with
  | nil => intro p; simp [munchFrom]
  | cons x xs ih =>
    intro p
    cases hA : anyAliveP A0 (p ++ [x]) with
    | true =>
      simp only [munchFrom, hA, if_true, List.length_cons]
      exact Nat.succ_le_succ (ih (p ++ [x]))
    | false =>
      simp [munchFrom, hA]

theorem munchFrom_zero_of_dead [LinearOrder Sym] {A0 : List (Automaton Sym × K)}
    {p : List Sym} (h : anyAliveP A0 p = false) (xs : List Sym) :
    munchFrom A0 p xs = 0 := by
  cases xs with
  | nil => rfl
  | cons x rest =>
    have hA : anyAliveP A0 (p ++ [x]) = false := by
      cases hc : anyAliveP A0 (p ++ [x]) with
      | false => rfl
      | true => rw [anyAliveP_append hc] at h; cases h
    simp [munchFrom, hA]

theorem munchFrom_alive [LinearOrder Sym] {A0 : List (Automaton Sym × K)} :
    ∀ (xs p : List Sym), anyAliveP A0 p = true →
      ∀ j, j ≤ munchFrom A0 p xs → anyAliveP A0 (p ++ xs.take j) = true := by
  intro xs
  induction xs with
  | nil =>
    intro p hp j hj
    simp only [munchFrom, Nat.le_zero] at hj
    subst hj
    simpa using hp
  | cons x xs ih =>
    intro p hp j hj
    cases hA : anyAliveP A0 (p ++ [x]) with
    | true =>
      cases j with
      | zero => simpa using hp
      | succ j' =>
        simp only [munchFrom, hA, if_true] at hj
        have hj' : j' ≤ munchFrom A0 (p ++ [x]) xs := Nat.succ_le_succ_iff.mp hj
        have hrec := ih (p ++ [x]) hA j' hj'
        rw [List.take_succ_cons]
        rw [show p ++ x :: List.take j' xs = (p ++ [x]) ++ List.take j' xs by simp]
        exact hrec
    | false =>
      simp only [munchFrom, hA, Bool.false_eq_true, if_false, Nat.le_zero] at hj
      subst hj
      simpa using hp

theorem munchFrom_stop [LinearOrder Sym] {A0 : List (Automaton Sym × K)} :
    ∀ (xs p : List Sym), munchFrom A0 p xs < xs.length →
      anyAliveP A0 (p ++ xs.take (munchFrom A0 p xs + 1)) = false := by
  intro xs
  induction xs with
  | nil =>
    intro p h
    simp [munchFrom] at h
  | cons x xs ih =>
    intro p h
    cases hA : anyAliveP A0 (p ++ [x]) with
    | true =>
      simp only [munchFrom, hA, if_true, List.length_cons] at h ⊢
      have h' : munchFrom A0 (p ++ [x]) xs < xs.length := Nat.succ_lt_succ_iff.mp h
      have hrec := ih (p ++ [x]) h'
      rw [List.take_succ_cons]
      rw [show p ++ x :: List.take (munchFrom A0 (p ++ [x]) xs + 1) xs
          = (p ++ [x]) ++ List.take (munchFrom A0 (p ++ [x]) xs + 1) xs by simp]
      exact hrec
    | false =>
      simp only [munchFrom, hA, Bool.false_eq_true, if_false]
      rw [List.take_succ_cons, List.take_zero]
      simpa using hA

theorem munchFrom_isGreatest [LinearOrder Sym] {A0 : List (Automaton Sym × K)}
    (hne : anyAliveP A0 ([] : List Sym) = true) (r : List Sym) :
    IsGreatest {k | k ≤ r.length ∧ ∀ j, j ≤ k → anyAliveP A0 (r.take j) = true}
      (munchFrom A0 [] r) := by
  constructor
  · refine ⟨munchFrom_le A0 r [], ?_⟩
    intro j hj
    have := munchFrom_alive r [] hne j hj
    simpa using this
  · intro k hk
    by_contra hlt
    have h1 : munchFrom A0 [] r + 1 ≤ k := Nat.succ_le_of_lt (Nat.lt_of_not_le hlt)
    have h2 : munchFrom A0 [] r < r.length := Nat.lt_of_lt_of_le
      (Nat.lt_of_succ_le h1) hk.1
    have hstop := munchFrom_stop r [] h2
    have halive := hk.2 (munchFrom A0 [] r + 1) h1
    rw [List.nil_append] at hstop
    rw [halive] at hstop
    cases hstop

/-- Per-token maximal-munch property over a chunk decomposition: each
chunk's length equals the munch length of the remaining stream when that
is positive, and is at most 1 otherwise. -/
def chunkLenOk [LinearOrder Sym] (A0 : List (Automaton Sym × K))
    (stream : List Sym) (cs : List (List Sym)) : Prop :=
  ∀ i c, cs.get? i = some c →
    (0 < munchFrom A0 [] (stream.drop (((cs.take i).map List.length).sum)) →
      c.length = munchFrom A0 [] (stream.drop (((cs.take i).map List.length).sum)))
    ∧ (munchFrom A0 [] (stream.drop (((cs.take i).map List.length).sum)) = 0 →
      c.length ≤ 1)

theorem chunkLenOk_cons [LinearOrder Sym] {A0 : List (Automaton Sym × K)}
    {stream : List Sym} {c : List Sym} {cs : List (List Sym)}
    (h0 : (0 < munchFrom A0 [] stream → c.length = munchFrom A0 [] stream)
      ∧ (munchFrom A0 [] stream = 0 → c.length ≤ 1))
    (h1 : chunkLenOk A0 (stream.drop c.length) cs) :
    chunkLenOk A0 stream (c :: cs) := by
  intro i c' hc'
  cases i with
  | zero =>
    have hcc : c' = c := by simpa using hc'.symm
    subst hcc
    simp only [List.take_zero, List.map_nil, List.sum_nil, List.drop_zero]
    exact h0
  | succ j =>
    have h2 := h1 j c' (by simpa using hc')
    simp only [List.take_succ_cons, List.map_cons, List.sum_cons]
    rw [← List.drop_drop]
    exact h2

theorem chunksFrom_mid [LinearOrder Sym] {A0 : List (Automaton Sym × K)} :
    ∀ (fuel : Nat) (r : List Sym) (y : Sym), r.length ≤ fuel →
      chunkLenOk A0 (y :: r) (chunksFrom A0 [y] r) := by
  intro fuel
  induction fuel with
  | zero =>
    intro r y hr
    have hr0 : r = [] := List.length_eq_zero.mp (Nat.le_zero.mp hr)
    subst hr0
    intro i c hc
    cases i with
    | zero =>
      have hcc : c = [y] := by simpa [chunksFrom] using hc.symm
      subst hcc
      simp only [List.take_zero, List.map_nil, List.sum_nil, List.drop_zero]
      constructor
      · intro _
        have hle := munchFrom_le A0 [y] ([] : List Sym)
        simp only [List.length_cons, List.length_nil] at hle
        simp only [List.length_cons, List.length_nil]
        omega
      · intro _
        simp
    | succ j =>
      simp [chunksFrom] at hc
  | succ n ihn =>
    intro r y hr
    rw [chunksFrom_head]
    apply chunkLenOk_cons
    · cases hA : anyAliveP A0 ([y] : List Sym) with
      | true =>
        have hm : munchFrom A0 [] (y :: r) = munchFrom A0 [y] r + 1 := by
          simp [munchFrom, hA]
        constructor
        · intro _
          rw [hm, List.length_append, List.length_take,
            Nat.min_eq_left (munchFrom_le A0 r [y])]
          simp [Nat.add_comm]
        · intro h0
          rw [hm] at h0
          exact absurd h0 (Nat.succ_ne_zero _)
      | false =>
        have hm : munchFrom A0 [] (y :: r) = 0 := by simp [munchFrom, hA]
        have hm1 : munchFrom A0 [y] r = 0 := munchFrom_zero_of_dead hA r
        constructor
        · intro h0
          rw [hm] at h0
          exact absurd h0 (Nat.lt_irrefl 0)
        · intro _
          rw [hm1]
          simp
    · have hlen : (([y] : List Sym) ++ r.take (munchFrom A0 [y] r)).length
          = munchFrom A0 [y] r + 1 := by
        rw [List.length_append, List.length_take,
          Nat.min_eq_left (munchFrom_le A0 r [y])]
        simp [Nat.add_comm]
      rw [hlen, List.drop_succ_cons]
      cases hd : r.drop (munchFrom A0 [y] r) with
      | nil =>
        intro i c hc
        simp [chunksTail] at hc
      | cons y2 r2 =>
        have hlen2 : r2.length ≤ n := by
          have h1 := congrArg List.length hd
          rw [List.length_drop] at h1
          simp only [List.length_cons] at h1
          omega
        show chunkLenOk A0 (y2 :: r2) (chunksFrom A0 [y2] r2)
        exact ihn r2 y2 hlen2

theorem chunksFrom_top [LinearOrder Sym] (A0 : List (Automaton Sym × K))
    (xs : List Sym) :
    chunkLenOk A0 xs (chunksFrom A0 [] xs) := by
  rw [chunksFrom_head]
  apply chunkLenOk_cons
  · constructor
    · intro _
      rw [List.nil_append, List.length_take,
        Nat.min_eq_left (munchFrom_le A0 xs [])]
    · intro h0
      rw [List.nil_append, List.length_take, h0]
      simp
  · have hlen : (([] : List Sym) ++ xs.take (munchFrom A0 [] xs)).length
        = munchFrom A0 [] xs := by
      rw [List.nil_append, List.length_take,
        Nat.min_eq_left (munchFrom_le A0 xs [])]
    rw [hlen]
    cases hd : xs.drop (munchFrom A0 [] xs) with
    | nil =>
      intro i c hc
      simp [chunksTail] at hc
    | cons y r =>
      show chunkLenOk A0 (y :: r) (chunksFrom A0 [y] r)
      exact chunksFrom_mid r.length r y (Nat.le_refl _)

/-! ### Characterization of `keyword_automaton`. -/

theorem modifyIdx_append_left (l₁ l₂ : List α) {i : Nat} (h : i < l₁.length)
    (f : α → α) : modifyIdx (l₁ ++ l₂) i f = modifyIdx l₁ i f ++ l₂ := by
  induction l₁ generalizing i with
  | nil => cases h
  | cons x xs ih =>
    cases i with
    | zero => rfl
    | succ n =>
      have hn : n < xs.length := Nat.succ_lt_succ_iff.mp h
      show x :: modifyIdx (xs ++ l₂) n f = x :: (modifyIdx xs n f ++ l₂)
      rw [ih hn]

theorem modifyIdx_last : ∀ (l : List α) (h : l ≠ []) (f : α → α),
    modifyIdx l (l.length - 1) f = l.dropLast ++ [f (l.getLast h)]
  | [], h, _ => absurd rfl h
  | [x], _, f => rfl
  | x :: y :: ys, _, f => by
    have ih := modifyIdx_last (y :: ys) (by simp) f
    show x :: modifyIdx (y :: ys) ((y :: ys).length - 1) f
      = (x :: y :: ys).dropLast ++ [f ((x :: y :: ys).getLast (by simp))]
    rw [ih]
    simp [List.getLast_cons]

/-- The chain of states produced by the `keyword_automaton` loop: `st` is
the last pre-existing state, which gets linked on the first symbol to a
fresh chain, one state per remaining symbol; only the final state is
accepting. -/
def linkChain (st : State Sym) : List Sym → Nat → List (State Sym)
  | [], _ => [st]
  | s :: rest, base =>
    { st with transitions := st.transitions ++ [((s, s), base)] }
      :: linkChain (State.new rest.isEmpty) rest (base + 1)

theorem keywordLoop_eq :
    ∀ (kw : List Sym) (sts : List (State Sym)) (hne : sts ≠ []),
      keywordLoop (⟨sts⟩ : AutomatonBuilder Sym) kw
        = some ⟨sts.dropLast ++ linkChain (sts.getLast hne) kw sts.length⟩ := by
  intro kw
  induction kw with
  | nil =>
    intro sts hne
    simp only [keywordLoop, linkChain]
    rw [List.dropLast_append_getLast hne]
  | cons s rest ih =>
    intro sts hne
    have hlen : 1 ≤ sts.length := by
      cases sts with
      | nil => exact absurd rfl hne
      | cons a l => simp
    simp only [keywordLoop, AutomatonBuilder.add_state]
    have htrans : AutomatonBuilder.add_transition
        (⟨sts ++ [State.new rest.isEmpty]⟩ : AutomatonBuilder Sym)
        (sts.length - 1) sts.length (s, s)
        = some ⟨modifyIdx (sts ++ [State.new rest.isEmpty]) (sts.length - 1)
            (fun st => { st with transitions := st.transitions ++ [((s, s), sts.length)] })⟩ := by
      simp only [AutomatonBuilder.add_transition, List.length_append,
        List.length_cons, List.length_nil]
      rw [if_neg (by omega), if_neg (by omega)]
    rw [htrans]
    have hmod : modifyIdx (sts ++ [State.new rest.isEmpty]) (sts.length - 1)
        (fun st => { st with transitions := st.transitions ++ [((s, s), sts.length)] })
        = (sts.dropLast
            ++ [{ sts.getLast hne with
                  transitions := (sts.getLast hne).transitions ++ [((s, s), sts.length)] }])
          ++ [State.new rest.isEmpty] := by
      rw [modifyIdx_append_left _ _ (by omega), modifyIdx_last sts hne]
    rw [hmod]
    show keywordLoop (⟨(sts.dropLast
        ++ [{ sts.getLast hne with
              transitions := (sts.getLast hne).transitions ++ [((s, s), sts.length)] }])
        ++ [State.new rest.isEmpty]⟩ : AutomatonBuilder Sym) rest
      = some ⟨sts.dropLast ++ linkChain (sts.getLast hne) (s :: rest) sts.length⟩
    rw [ih _ (by simp)]
    congr 1
    have hdl := @List.dropLast_concat _ (sts.dropLast
        ++ [{ sts.getLast hne with
              transitions := (sts.getLast hne).transitions ++ [((s, s), sts.length)] }])
      (State.new rest.isEmpty)
    have hgl := @List.getLast_concat _ (State.new rest.isEmpty) (sts.dropLast
        ++ [{ sts.getLast hne with
              transitions := (sts.getLast hne).transitions ++ [((s, s), sts.length)] }])
    rw [hdl, hgl]
    have hln : ((sts.dropLast
        ++ [{ sts.getLast hne with
              transitions := (sts.getLast hne).transitions ++ [((s, s), sts.length)] }])
        ++ [State.new rest.isEmpty]).length = sts.length + 1 := by
      simp only [List.length_append, List.length_cons, List.length_nil,
        List.length_dropLast]
      omega
    rw [hln]
    congr 1
    show sts.dropLast
        ++ [{ sts.getLast hne with
              transitions := (sts.getLast hne).transitions ++ [((s, s), sts.length)] }]
        ++ linkChain (State.new rest.isEmpty) rest (sts.length + 1)
      = sts.dropLast ++ linkChain (sts.getLast hne) (s :: rest) sts.length
    rw [linkChain]
    rw [List.append_assoc]
    rfl

theorem keyword_automaton_eq (kw : List Sym) :
    keyword_automaton kw
      = ⟨linkChain (State.new false) kw 1, some START, false⟩ := by
  rw [keyword_automaton]
  rw [show (AutomatonBuilder.new : AutomatonBuilder Sym)
      = ⟨[State.new false]⟩ from rfl]
  rw [keywordLoop_eq kw [State.new false] (by simp)]
  rfl

theorem linkChain_get_pos :
    ∀ (kw : List Sym) (st : State Sym) (base i : Nat), 1 ≤ i → i ≤ kw.length →
      (linkChain st kw base).get? i
        = some ⟨(kw.get? i).elim [] (fun c => [((c, c), base + i)]),
            decide (i = kw.length)⟩ := by
  intro kw
  induction kw with
  | nil =>
    intro st base i h1 h2
    simp at h2
    omega
  | cons s rest ih =>
    intro st base i h1 h2
    cases i with
    | zero => cases h1
    | succ j =>
      show (linkChain (State.new rest.isEmpty) rest (base + 1)).get? j = _
      rcases Nat.eq_zero_or_pos j with hj | hj
      · subst hj
        cases rest with
        | nil => rfl
        | cons s2 r2 =>
          refine congrArg some ?_
          show State.mk [((s2, s2), base + 1)] false = _
          have hacc : decide (0 + 1 = (s :: s2 :: r2).length) = false := by
            rw [decide_eq_false_iff_not]
            simp
          rw [hacc]
          rfl
      · have h2' : j ≤ rest.length := by
          simpa using h2
        rw [ih (State.new rest.isEmpty) (base + 1) j hj h2']
        refine congrArg some ?_
        have harith : base + 1 + j = base + (j + 1) := by omega
        have hdec : decide (j = rest.length) = decide (j + 1 = (s :: rest).length) := by
          rw [decide_eq_decide]
          simp
        rw [harith, hdec]
        rfl

theorem keyword_states_get (kw : List Sym) (i : Nat) (h : i ≤ kw.length) :
    (keyword_automaton kw).states.get? i
      = some ⟨(kw.get? i).elim [] (fun c => [((c, c), i + 1)]),
          decide (i = kw.length) && !kw.isEmpty⟩ := by
  rw [keyword_automaton_eq]
  show (linkChain (State.new false) kw 1).get? i = _
  rcases Nat.eq_zero_or_pos i with hi | hi
  · subst hi
    cases kw with
    | nil => rfl
    | cons s rest =>
      refine congrArg some ?_
      show State.mk [((s, s), 1)] false = _
      have hacc : (decide (0 = (s :: rest).length) && !(s :: rest).isEmpty) = false := by
        have : decide (0 = (s :: rest).length) = false := by
          rw [decide_eq_false_iff_not]
          simp
        rw [this, Bool.false_and]
      rw [hacc]
      rfl
  · have hne : kw ≠ [] := by
      intro hc
      subst hc
      simp at h
      omega
    rw [linkChain_get_pos kw (State.new false) 1 i hi h]
    refine congrArg some ?_
    have harith : 1 + i = i + 1 := by omega
    have hdec : decide (i = kw.length)
        = (decide (i = kw.length) && !kw.isEmpty) := by
      have : kw.isEmpty = false := by
        cases kw with
        | nil => exact absurd rfl hne
        | cons a l => rfl
      rw [this]
      rw [Bool.not_false, Bool.and_true]
    rw [harith, ← hdec]

theorem rangeContains_same [LinearOrder Sym] (x y : Sym) :
    rangeContains (x, x) y = decide (y = x) := by
  rw [rangeContains, Bool.eq_iff_iff]
  simp only [Bool.and_eq_true, decide_eq_true_eq]
  constructor
  · rintro ⟨h1, h2⟩
    exact le_antisymm h2 h1
  · rintro rfl
    exact ⟨le_refl y, le_refl y⟩

theorem kwA_step [LinearOrder Sym] (kw : List Sym) (i : Nat) (b : Bool)
    (c : Sym) (h : i ≤ kw.length) :
    (Automaton.transition ⟨(keyword_automaton kw).states, some i, b⟩ (some c)).current_state
      = if kw.get? i = some c then some (i + 1) else none := by
  show ((keyword_automaton kw).states.getD i (State.new false)).transition (some c) = _
  rw [List.getD_eq_get?, keyword_states_get kw i h]
  cases hg : kw.get? i with
  | none =>
    rw [if_neg (fun hc => Option.noConfusion hc)]
    rfl
  | some c' =>
    show (match List.find? (fun t => rangeContains t.1 c) [((c', c'), i + 1)] with
      | some t => some t.2
      | none => none) = _
    rw [List.find?_cons]
    have hrc : rangeContains ((c', c'), i + 1).1 c = decide (c = c') :=
      rangeContains_same c' c
    by_cases hcc : c = c'
    · subst hcc
      have hd : decide (c = c) = true := by simp
      rw [hrc, hd, if_pos rfl]
    · rw [hrc]
      have : decide (c = c') = false := by
        rw [decide_eq_false_iff_not]
        exact hcc
      rw [this]
      rw [if_neg (fun hc2 => hcc (Option.some.inj hc2).symm)]
      rfl

theorem get?_eq_some_of_getElem {l : List α} {i : Nat} (h : i < l.length)
    (c : α) (hv : l[i] = c) : l.get? i = some c :=
  List.get?_eq_some.mpr ⟨h, by rw [List.get_eq_getElem]; exact hv⟩

theorem kwA_run [LinearOrder Sym] :
    ∀ (q kw : List Sym) (i : Nat) (b : Bool), i ≤ kw.length →
      (feed ⟨(keyword_automaton kw).states, some i, b⟩ q).current_state
        = if q <+: kw.drop i then some (i + q.length) else none := by
  intro q
  induction q with
  | nil =>
    intro kw i b h
    rw [feed_nil]
    rw [if_pos List.nil_prefix]
    rfl
  | cons c q' ih =>
    intro kw i b h
    rw [feed_cons]
    have hstep := kwA_step kw i b c h
    have hst := transition_states
      (⟨(keyword_automaton kw).states, some i, b⟩ : Automaton Sym) (some c)
    generalize ha1 : Automaton.transition
      (⟨(keyword_automaton kw).states, some i, b⟩ : Automaton Sym) (some c) = a1
    rw [ha1] at hstep hst
    obtain ⟨st1, cur1, pv1⟩ := a1
    simp only at hstep hst
    subst hst
    by_cases hg : kw.get? i = some c
    · have hlt : i < kw.length := by
        by_contra hc
        rw [List.get?_len_le (Nat.le_of_not_lt hc)] at hg
        cases hg
      rw [if_pos hg] at hstep
      subst hstep
      rw [ih kw (i + 1) _ (Nat.succ_le_of_lt hlt)]
      have hdrop : kw.drop i = c :: kw.drop (i + 1) := by
        rw [List.drop_eq_getElem_cons hlt]
        obtain ⟨hh, hv⟩ := List.get?_eq_some.mp hg
        rw [List.get_eq_getElem] at hv
        rw [hv]
      rw [hdrop]
      by_cases hq : q' <+: kw.drop (i + 1)
      · rw [if_pos hq, if_pos (List.cons_prefix_cons.mpr ⟨rfl, hq⟩)]
        congr 1
        simp only [List.length_cons]
        omega
      · rw [if_neg hq,
          if_neg (fun hc2 => hq (List.cons_prefix_cons.mp hc2).2)]
    · rw [if_neg hg] at hstep
      subst hstep
      have hdead : (feed (⟨(keyword_automaton kw).states, none, pv1⟩ : Automaton Sym)
          q').current_state = none := feed_dead rfl q'
      rw [hdead]
      have hnc : ¬ (c :: q' <+: kw.drop i) := by
        intro hpre
        rcases Nat.lt_or_ge i kw.length with hlt | hge
        · rw [List.drop_eq_getElem_cons hlt] at hpre
          have hc := (List.cons_prefix_cons.mp hpre).1
          exact hg (get?_eq_some_of_getElem hlt c hc.symm)
        · rw [List.drop_eq_nil_of_le hge] at hpre
          have h0 := List.prefix_nil.mp hpre
          cases h0
      rw [if_neg hnc]

theorem keyword_automaton_dest (kw : List Sym) :
    keyword_automaton kw = ⟨(keyword_automaton kw).states, some 0, false⟩ := by
  rw [keyword_automaton_eq]
  rfl

theorem keyword_feed_current [LinearOrder Sym] (kw q : List Sym) :
    (feed (keyword_automaton kw) q).current_state
      = if q <+: kw then some q.length else none := by
  conv_lhs => rw [keyword_automaton_dest]
  rw [kwA_run q kw 0 false (Nat.zero_le _)]
  rw [List.drop_zero, Nat.zero_add]

theorem keyword_accepting [LinearOrder Sym] (kw q : List Sym) :
    isAcceptingState (feed (keyword_automaton kw) q) = true
      ↔ (q = kw ∧ kw ≠ []) := by
  by_cases hq : q <+: kw
  · have hcur := keyword_feed_current kw q
    rw [if_pos hq] at hcur
    rw [isAcceptingState, hcur]
    rw [Option.map_some', Option.getD_some]
    rw [feed_states]
    rw [show (keyword_automaton kw).states.getD q.length (State.new false)
        = ((keyword_automaton kw).states.get? q.length).getD (State.new false)
      from List.getD_eq_get? _ _ _]
    rw [keyword_states_get kw q.length (List.IsPrefix.length_le hq)]
    rw [Option.getD_some]
    show (decide (q.length = kw.length) && !kw.isEmpty) = true ↔ _
    rw [Bool.and_eq_true, decide_eq_true_eq]
    constructor
    · rintro ⟨hlen, hemp⟩
      refine ⟨List.IsPrefix.eq_of_length hq hlen, ?_⟩
      intro hc
      subst hc
      cases hemp
    · rintro ⟨rfl, hne⟩
      refine ⟨rfl, ?_⟩
      cases q with
      | nil => exact absurd rfl hne
      | cons a l => rfl
  · have hcur := keyword_feed_current kw q
    rw [if_neg hq] at hcur
    rw [isAcceptingState, hcur]
    constructor
    · intro h
      cases h
    · rintro ⟨rfl, _⟩
      exact absurd (List.prefix_refl q) hq

theorem keyword_feed_eta [LinearOrder Sym] (kw q : List Sym) (hq : q <+: kw) :
    feed (keyword_automaton kw) q
      = ⟨(keyword_automaton kw).states, some q.length,
         (feed (keyword_automaton kw) q).previous_accepting⟩ := by
  have h1 : (feed (keyword_automaton kw) q).states
      = (keyword_automaton kw).states := feed_states _ _
  have h2 := keyword_feed_current kw q
  rw [if_pos hq] at h2
  calc feed (keyword_automaton kw) q
      = ⟨(feed (keyword_automaton kw) q).states,
         (feed (keyword_automaton kw) q).current_state,
         (feed (keyword_automaton kw) q).previous_accepting⟩ := rfl
    _ = _ := by rw [h1, h2]

/-! ### Bridge between `lex` and the instrumented run, and helper facts. -/

theorem lexAux_eq_lexT [LinearOrder Sym] [TokenKind K] :
    ∀ (symbols : List (Option Sym)) (l : Lexer Sym K),
      l.lexAux symbols
        = ((l.lexT symbols).1,
           ((l.lexT symbols).2).map (fun kt => Token.new kt.1 kt.2)) := by
  intro symbols
  induction symbols with
  | nil => intro l; rfl
  | cons s rest ih =>
    intro l
    simp only [Lexer.lexAux, Lexer.lexT, Lexer.step]
    rw [ih]
    refine congrArg _ ?_
    rw [List.map_append]
    refine congrArg (· ++ _) ?_
    cases (l.stepT s).2 with
    | none => rfl
    | some kt => rfl

theorem lex_eq_lexT [LinearOrder Sym] [TokenKind K] (l : Lexer Sym K)
    (symbols : List (Option Sym)) :
    l.lex symbols = ((l.lexT symbols).2).map (fun kt => Token.new kt.1 kt.2) := by
  rw [Lexer.lex, lexAux_eq_lexT]

/-- Losslessness of the consumed runs (helper shared by several claims). -/
theorem lexT_flatten [LinearOrder Sym] [TokenKind K]
    (A0 : List (Automaton Sym × K)) (xs : List Sym)
    (hF : ∀ ak ∈ A0, ak.1.current_state = some START) :
    ((((Lexer.new A0).lexT (xs.map some ++ [none])).2).map
        (fun kt => kt.2)).flatten = xs := by
  rw [lexT_eq_tokensFrom hF, tokensFrom_eq_chunks, List.map_map]
  rw [show ((fun kt : K × List Sym => kt.2)
      ∘ (fun q : List Sym => (selectKind A0 q, q))) = id from rfl]
  rw [List.map_id, chunksFrom_flatten]
  rfl

theorem lexT_ne_nil [LinearOrder Sym] [TokenKind K]
    (A0 : List (Automaton Sym × K)) (xs : List Sym)
    (hF : ∀ ak ∈ A0, ak.1.current_state = some START) :
    ((Lexer.new A0).lexT (xs.map some ++ [none])).2 ≠ [] := by
  rw [lexT_eq_tokensFrom hF, tokensFrom_eq_chunks]
  intro hc
  exact chunksFrom_ne_nil A0 xs [] (List.map_eq_nil.mp hc)

theorem feedActive_none [LinearOrder Sym] :
    ∀ (active : List Nat) (autos : List (Automaton Sym × K)),
      (feedActive autos active (none : Option Sym)).2 = false := by
  have go : ∀ (active : List Nat) (autos : List (Automaton Sym × K)),
      (active.foldl
        (fun acc idx =>
          let autos2 := modifyIdx acc.1 idx
            (fun ak => (ak.1.transition (none : Option Sym), ak.2))
          (autos2, acc.2 || aliveAt autos2 idx))
        (autos, false)).2 = false := by
    intro active
    induction active with
    | nil => intro autos; rfl
    | cons i rest ih =>
      intro autos
      have hdead : aliveAt (modifyIdx autos i
          (fun ak => (ak.1.transition (none : Option Sym), ak.2))) i = false := by
        rw [aliveAt, modifyIdx_get?_eq]
        cases autos.get? i with
        | none => rfl
        | some ak =>
          show (ak.1.transition none).is_alive = false
          rw [Automaton.is_alive, transition_none_dead]
          rfl
      show (List.foldl _ (modifyIdx autos i _, false || aliveAt (modifyIdx autos i _) i) rest).2 = false
      rw [hdead]
      exact ih _
  intro active autos
  exact go active autos

theorem not_accepting_of_dead {a : Automaton Sym} (h : a.is_alive = false) :
    isAcceptingState a = false := by
  cases hb : isAcceptingState a with
  | false => rfl
  | true => rw [isAccepting_alive hb] at h; cases h

theorem keyword_not_accepting [LinearOrder Sym] {kw q : List Sym} (h : q ≠ kw) :
    isAcceptingState (feed (keyword_automaton kw) q) = false := by
  cases hb : isAcceptingState (feed (keyword_automaton kw) q) with
  | false => rfl
  | true => exact absurd ((keyword_accepting kw q).mp hb).1 h

theorem selectKind_nil_unknown [LinearOrder Sym] [TokenKind K]
    {A0 : List (Automaton Sym × K)}
    (hSA : ∀ ak ∈ A0, isAcceptingState ak.1 = false) :
    selectKind A0 ([] : List Sym) = TokenKind.unknown := by
  rw [selectKind]
  have hfind : A0.find? (fun ak => isAcceptingState (feed ak.1 [])) = none := by
    rw [List.find?_eq_none]
    intro ak hak
    rw [feed_nil, hSA ak hak]
    simp
  rw [hfind]

theorem feedO_dead [LinearOrder Sym] :
    ∀ (l : List (Option Sym)) {a : Automaton Sym},
      a.current_state = none → (feedO a l).current_state = none := by
  intro l
  induction l with
  | nil => intro a h; exact h
  | cons s rest ih =>
    intro a h
    show (feedO (a.transition s) rest).current_state = none
    exact ih (transition_dead h s)

/-! ### Concrete token kinds used for witnesses and counterexamples. -/

/-- Small concrete kind type: `u` is the Unknown kind; `a` keeps text,
`b` does not. -/
inductive Kinds where
  | a : Kinds
  | b : Kinds
  | u : Kinds
deriving DecidableEq

instance : TokenKind Kinds :=
  ⟨Kinds.u, fun k => match k with
    | Kinds.b => false
    | _ => true⟩

/-! ### The claims. -/

/-- C7: reset equivalence. For every builder `b` and every prior history
of `transition` calls, `reset()` restores exactly the freshly built
automaton `b.build` (current = start index, previous_accepting = false,
topology unchanged), so every subsequent sequence of transitions yields
the same `is_alive`/`is_previous_accepting` observations on both. -/
theorem C7_reset_equiv [LinearOrder Sym] (b : AutomatonBuilder Sym)
    (hist : List (Option Sym)) :
    (feedO b.build hist).reset = b.build
    ∧ ∀ t : List (Option Sym),
        (feedO ((feedO b.build hist).reset) t).is_alive
            = (feedO b.build t).is_alive
        ∧ (feedO ((feedO b.build hist).reset) t).is_previous_accepting
            = (feedO b.build t).is_previous_accepting := by
  have hmain : (feedO b.build hist).reset = b.build := by
    show (⟨(feedO b.build hist).states, some START, false⟩ : Automaton Sym) = b.build
    rw [feedO_states]
    rfl
  refine ⟨hmain, fun t => ?_⟩
  rw [hmain]
  exact ⟨rfl, rfl⟩

/-- C8: dead-stays-dead invariant. Once an automaton's current state is
absent, any single transition (real symbol or sentinel) leaves it absent
and records `previous_accepting = false`, and any sequence of further
transitions leaves it absent. -/
theorem C8_dead_stays_dead [LinearOrder Sym] (a : Automaton Sym)
    (h : a.current_state = none) :
    (∀ s : Option Sym, (a.transition s).current_state = none
        ∧ (a.transition s).previous_accepting = false)
    ∧ ∀ l : List (Option Sym), (feedO a l).current_state = none := by
  constructor
  · intro s
    refine ⟨transition_dead h s, ?_⟩
    rw [transition_prev, isAcceptingState, h]
    rfl
  · intro l
    exact feedO_dead l h

/-- C8 witness: the dead-stays-dead invariant applied to the keyword
automaton for [0] killed by the sentinel. -/
theorem C8_witness :
    (((keyword_automaton ([0] : List Nat)).transition none).current_state = none)
    ∧ ((∀ s : Option Nat,
          ((((keyword_automaton ([0] : List Nat)).transition none).transition s).current_state = none)
          ∧ ((((keyword_automaton ([0] : List Nat)).transition none).transition s).previous_accepting = false))
        ∧ ∀ l : List (Option Nat),
            (feedO ((keyword_automaton ([0] : List Nat)).transition none) l).current_state = none) :=
  ⟨by decide, C8_dead_stays_dead _ (by decide)⟩

/-- C9: builder fail-fast. `add_transition from to range` fails (the
modelled `panic!`, i.e. `none`) iff `from` or `to` is at least the number
of states currently in the builder (start state included); with in-bounds
indices it succeeds, appending the transition to `from`'s table and
leaving every other state and the state count unchanged. -/
theorem C9_add_transition_spec (b : AutomatonBuilder Sym) (f t : Nat)
    (r : Sym × Sym) :
    ((b.add_transition f t r = none)
        ↔ (b.states.length ≤ f ∨ b.states.length ≤ t))
    ∧ (f < b.states.length → t < b.states.length →
        ∃ b2, b.add_transition f t r = some b2
          ∧ b2.states.get? f = (b.states.get? f).map
              (fun st => { st with transitions := st.transitions ++ [(r, t)] })
          ∧ (∀ j, j ≠ f → b2.states.get? j = b.states.get? j)
          ∧ b2.states.length = b.states.length) := by
  constructor
  · by_cases h1 : b.states.length ≤ f
    · rw [AutomatonBuilder.add_transition, if_pos h1]
      simp [h1]
    · by_cases h2 : b.states.length ≤ t
      · rw [AutomatonBuilder.add_transition, if_neg h1, if_pos h2]
        simp [h2]
      · rw [AutomatonBuilder.add_transition, if_neg h1, if_neg h2]
        simp [h1, h2]
  · intro hf ht
    have h1 : ¬ b.states.length ≤ f := Nat.not_le_of_lt hf
    have h2 : ¬ b.states.length ≤ t := Nat.not_le_of_lt ht
    refine ⟨⟨modifyIdx b.states f
        (fun st => { st with transitions := st.transitions ++ [(r, t)] })⟩, ?_, ?_, ?_, ?_⟩
    · rw [AutomatonBuilder.add_transition, if_neg h1, if_neg h2]
    · exact modifyIdx_get?_eq _ _ _
    · intro j hj
      exact modifyIdx_get?_ne _ hj _
    · exact modifyIdx_length _ _ _

/-- C9 witness: the fail-fast characterization applied to a fresh builder
(one state): index 1 is out of bounds, index 0 is in bounds. -/
theorem C9_witness :
    (((AutomatonBuilder.new : AutomatonBuilder Nat).add_transition 0 1 (0, 0) = none)
        ↔ ((AutomatonBuilder.new : AutomatonBuilder Nat).states.length ≤ 0
            ∨ (AutomatonBuilder.new : AutomatonBuilder Nat).states.length ≤ 1))
    ∧ (∃ b2, (AutomatonBuilder.new : AutomatonBuilder Nat).add_transition 0 0 (5, 9) = some b2
        ∧ b2.states.get? 0 = ((AutomatonBuilder.new : AutomatonBuilder Nat).states.get? 0).map
            (fun st => { st with transitions := st.transitions ++ [((5, 9), 0)] })
        ∧ (∀ j, j ≠ 0 → b2.states.get? j
            = (AutomatonBuilder.new : AutomatonBuilder Nat).states.get? j)
        ∧ b2.states.length = (AutomatonBuilder.new : AutomatonBuilder Nat).states.length) :=
  ⟨(C9_add_transition_spec AutomatonBuilder.new 0 1 (0, 0)).1,
   (C9_add_transition_spec AutomatonBuilder.new 0 0 (5, 9)).2 (by decide) (by decide)⟩

/-- C6 counterexample: for the empty keyword sequence the claim fails.
`keyword_automaton []` has only the non-accepting start state, so after
feeding exactly the symbols of `S = []` the automaton is NOT in an
accepting state, and after the sentinel `is_previous_accepting` is false
— contradicting the claim's "accepting immediately before the sentinel"
for every symbol sequence `S`. -/
theorem C6_counterexample :
    isAcceptingState (feed (keyword_automaton ([] : List Nat)) []) = false
    ∧ ((feed (keyword_automaton ([] : List Nat)) []).transition none).is_previous_accepting
        = false := by
  decide

/-- C6 (amended to nonempty keyword sequences): keyword automaton
exactness. For any nonempty `S`, feeding exactly `S` leaves the
automaton alive and in an accepting state; the following sentinel leaves
`is_previous_accepting` true and kills it; the automaton accepts exactly
`S` and nothing else; and any symbol deviating from `S` at any position
kills it. -/
theorem C6_keyword_exact [LinearOrder Sym] (S : List Sym) (hS : S ≠ []) :
    (feed (keyword_automaton S) S).is_alive = true
    ∧ isAcceptingState (feed (keyword_automaton S) S) = true
    ∧ ((feed (keyword_automaton S) S).transition none).is_previous_accepting = true
    ∧ ((feed (keyword_automaton S) S).transition none).is_alive = false
    ∧ (∀ q : List Sym,
        isAcceptingState (feed (keyword_automaton S) q) = true ↔ q = S)
    ∧ (∀ (i : Nat) (c : Sym), i ≤ S.length → S.get? i ≠ some c →
        (feed (keyword_automaton S) (S.take i ++ [c])).is_alive = false) := by
  have hacc : isAcceptingState (feed (keyword_automaton S) S) = true :=
    (keyword_accepting S S).mpr ⟨rfl, hS⟩
  refine ⟨?_, hacc, ?_, ?_, ?_, ?_⟩
  · have hcur := keyword_feed_current S S
    rw [if_pos (List.prefix_refl S)] at hcur
    rw [Automaton.is_alive, hcur]
    rfl
  · rw [Automaton.is_previous_accepting, transition_prev]
    exact hacc
  · rw [Automaton.is_alive, transition_none_dead]
    rfl
  · intro q
    rw [keyword_accepting]
    exact ⟨fun h => h.1, fun h => ⟨h, hS⟩⟩
  · intro i c hi hg
    rw [feed_append]
    have hlen : (S.take i).length = i := by
      rw [List.length_take, Nat.min_eq_left hi]
    rw [keyword_feed_eta S (S.take i) ( List.take_prefix i S), hlen]
    show (Automaton.transition
        (⟨(keyword_automaton S).states, some i, _⟩ : Automaton Sym) (some c)).is_alive
      = false
    rw [Automaton.is_alive, kwA_step S i _ c hi, if_neg hg]
    rfl

/-- C6 witness: keyword exactness instantiated at the one-symbol keyword
[0] over natural-number symbols. -/
theorem C6_witness :
    (([0] : List Nat) ≠ [])
    ∧ ((feed (keyword_automaton ([0] : List Nat)) [0]).is_alive = true
      ∧ isAcceptingState (feed (keyword_automaton ([0] : List Nat)) [0]) = true
      ∧ ((feed (keyword_automaton ([0] : List Nat)) [0]).transition none).is_previous_accepting = true
      ∧ ((feed (keyword_automaton ([0] : List Nat)) [0]).transition none).is_alive = false
      ∧ (∀ q : List Nat,
          isAcceptingState (feed (keyword_automaton ([0] : List Nat)) q) = true ↔ q = [0])
      ∧ (∀ (i : Nat) (c : Nat), i ≤ ([0] : List Nat).length → ([0] : List Nat).get? i ≠ some c →
          (feed (keyword_automaton ([0] : List Nat)) (([0] : List Nat).take i ++ [c])).is_alive = false)) :=
  ⟨by decide, C6_keyword_exact [0] (by decide)⟩

/-- C2: first-registration tie-break. For every registered (freshly
built) automaton set and every input, each emitted token's kind is
`selectKind` of its consumed run: the kind of the FIRST automaton, in
registration order (`List.find?` scans in list order), left in an
accepting state by that run — the Unknown kind when there is none. In
particular, when several automata accept at the same maximal length, the
earliest registered determines the kind. -/
theorem C2_tie_break [LinearOrder Sym] [TokenKind K]
    (A0 : List (Automaton Sym × K)) (xs : List Sym)
    (hF : ∀ ak ∈ A0, ak.1.current_state = some START) :
    ∀ kt ∈ ((Lexer.new A0).lexT (xs.map some ++ [none])).2,
      kt.1 = selectKind A0 kt.2 := by
  intro kt hkt
  rw [lexT_eq_tokensFrom hF, tokensFrom_eq_chunks] at hkt
  obtain ⟨q, _, rfl⟩ := List.mem_map.mp hkt
  rfl

/-- C2 witness: two identical keyword automata for [0] with kinds `a`
and `b`; the emitted token kind is `a`, the earlier registered. -/
theorem C2_witness :
    ((Lexer.new [((keyword_automaton ([0] : List Nat)), Kinds.a),
        ((keyword_automaton ([0] : List Nat)), Kinds.b)]).lexT
        (([0] : List Nat).map some ++ [none])).2 = [(Kinds.a, [0])]
    ∧ ∀ kt ∈ ((Lexer.new [((keyword_automaton ([0] : List Nat)), Kinds.a),
        ((keyword_automaton ([0] : List Nat)), Kinds.b)]).lexT
        (([0] : List Nat).map some ++ [none])).2,
      kt.1 = selectKind [((keyword_automaton ([0] : List Nat)), Kinds.a),
        ((keyword_automaton ([0] : List Nat)), Kinds.b)] kt.2 :=
  ⟨by decide, C2_tie_break _ [0] (by decide)⟩

/-- C3: losslessness. Concatenating the symbol runs consumed by the
emitted tokens, in emission order, reconstructs exactly the input before
the sentinel; the real `lex` output is the instrumented run with
`Token.new` applied, and a `Token`'s text is present iff its kind's
`has_text` is true, in which case it is exactly the consumed run. -/
theorem C3_lossless [LinearOrder Sym] [TokenKind K]
    (A0 : List (Automaton Sym × K)) (xs : List Sym)
    (hF : ∀ ak ∈ A0, ak.1.current_state = some START) :
    ((((Lexer.new A0).lexT (xs.map some ++ [none])).2).map
        (fun kt => kt.2)).flatten = xs
    ∧ (Lexer.new A0).lex (xs.map some ++ [none])
        = (((Lexer.new A0).lexT (xs.map some ++ [none])).2).map
            (fun kt => Token.new kt.1 kt.2)
    ∧ ∀ (k : K) (t : List Sym),
        (Token.new k t : Token Sym K).text
          = if TokenKind.has_text k then some t else none :=
  ⟨lexT_flatten A0 xs hF, lex_eq_lexT _ _, fun _ _ => rfl⟩

/-- C3 witness: keyword [0] (kind `a`, keeps text) and keyword [1]
(kind `b`, drops text) on input [0, 1]; the `lex` output carries
`some [0]` and `none` respectively, and the runs flatten to the input. -/
theorem C3_witness :
    ((Lexer.new [((keyword_automaton ([0] : List Nat)), Kinds.a),
        ((keyword_automaton ([1] : List Nat)), Kinds.b)]).lex
        (([0, 1] : List Nat).map some ++ [none])
      = [⟨Kinds.a, some [0]⟩, ⟨Kinds.b, none⟩])
    ∧ (((((Lexer.new [((keyword_automaton ([0] : List Nat)), Kinds.a),
        ((keyword_automaton ([1] : List Nat)), Kinds.b)]).lexT
        (([0, 1] : List Nat).map some ++ [none])).2).map
        (fun kt => kt.2)).flatten = [0, 1]
      ∧ (Lexer.new [((keyword_automaton ([0] : List Nat)), Kinds.a),
          ((keyword_automaton ([1] : List Nat)), Kinds.b)]).lex
          (([0, 1] : List Nat).map some ++ [none])
        = ((((Lexer.new [((keyword_automaton ([0] : List Nat)), Kinds.a),
            ((keyword_automaton ([1] : List Nat)), Kinds.b)]).lexT
            (([0, 1] : List Nat).map some ++ [none])).2).map
            (fun kt => Token.new kt.1 kt.2))
      ∧ ∀ (k : Kinds) (t : List Nat),
          (Token.new k t : Token Nat Kinds).text
            = if TokenKind.has_text k then some t else none) :=
  ⟨by decide, C3_lossless _ [0, 1] (by decide)⟩

/-- C5: termination and final flush. The sentinel kills every automaton
(no state has a transition for the absent symbol); the sentinel step of
ANY lexer state always emits a token and leaves the pending text empty
(the final flush); and for every freshly built automaton set and finite
input the (finite, list-valued) output covers the whole input and is
nonempty. -/
theorem C5_termination [LinearOrder Sym] [TokenKind K] :
    (∀ a : Automaton Sym, (a.transition none).is_alive = false)
    ∧ (∀ l : Lexer Sym K,
        ((l.stepT none).2).isSome = true ∧ (l.stepT none).1.token_text = [])
    ∧ ∀ (A0 : List (Automaton Sym × K)) (xs : List Sym),
        (∀ ak ∈ A0, ak.1.current_state = some START) →
          ((((Lexer.new A0).lexT (xs.map some ++ [none])).2).map
              (fun kt => kt.2)).flatten = xs
          ∧ ((Lexer.new A0).lexT (xs.map some ++ [none])).2 ≠ [] := by
  refine ⟨?_, ?_, ?_⟩
  · intro a
    rw [Automaton.is_alive, transition_none_dead]
    rfl
  · intro l
    have hfa := feedActive_none
      (l.active_automata.filter (fun idx => aliveAt l.automata idx)) l.automata
    simp only [Lexer.stepT, hfa, Bool.false_eq_true, if_false]
    exact ⟨rfl, rfl⟩
  · intro A0 xs hF
    exact ⟨lexT_flatten A0 xs hF, lexT_ne_nil A0 xs hF⟩

/-- C5 witness: sentinel behavior at the keyword automaton for [0] and a
full scan of the unmatched input [1]. -/
theorem C5_witness :
    (((keyword_automaton ([0] : List Nat)).transition none).is_alive = false)
    ∧ (((((Lexer.new [((keyword_automaton ([0] : List Nat)), Kinds.a)]).lexT
        (([1] : List Nat).map some ++ [none])).2).map
        (fun kt => kt.2)).flatten = [1]
      ∧ ((Lexer.new [((keyword_automaton ([0] : List Nat)), Kinds.a)]).lexT
        (([1] : List Nat).map some ++ [none])).2 ≠ []) :=
  ⟨(@C5_termination Nat Kinds _ _).1 _,
   (@C5_termination Nat Kinds _ _).2.2 _ [1] (by decide)⟩

/-- C4: unknown fallback coverage. If no registered automaton is left in
an accepting state by any contiguous run of the input, then every
emitted token has the Unknown kind, and the consumed runs still flatten
to the whole input — nothing is dropped and nothing is surfaced as an
error (the scan is a total function). -/
theorem C4_unknown_fallback [LinearOrder Sym] [TokenKind K]
    (A0 : List (Automaton Sym × K)) (xs : List Sym)
    (hF : ∀ ak ∈ A0, ak.1.current_state = some START)
    (hna : ∀ q : List Sym, q <:+: xs →
      ∀ ak ∈ A0, isAcceptingState (feed ak.1 q) = false) :
    (∀ kt ∈ ((Lexer.new A0).lexT (xs.map some ++ [none])).2,
        kt.1 = TokenKind.unknown)
    ∧ ((((Lexer.new A0).lexT (xs.map some ++ [none])).2).map
        (fun kt => kt.2)).flatten = xs := by
  refine ⟨?_, lexT_flatten A0 xs hF⟩
  intro kt hkt
  rw [lexT_eq_tokensFrom hF, tokensFrom_eq_chunks] at hkt
  obtain ⟨q, hq, rfl⟩ := List.mem_map.mp hkt
  show selectKind A0 q = TokenKind.unknown
  rw [selectKind]
  have hfind : A0.find? (fun ak => isAcceptingState (feed ak.1 q)) = none := by
    rw [List.find?_eq_none]
    intro ak hak
    have hinf : q <:+: xs := by
      have hflat := List.infix_of_mem_flatten hq
      rw [chunksFrom_flatten] at hflat
      simpa using hflat
    rw [hna q hinf ak hak]
    simp
  rw [hfind]

/-- C4 witness: the keyword automaton for [0] on the fully unmatched
input [1, 1]: both tokens come out with the Unknown kind and the runs
cover the input. -/
theorem C4_witness :
    (∀ kt ∈ ((Lexer.new [((keyword_automaton ([0] : List Nat)), Kinds.a)]).lexT
        (([1, 1] : List Nat).map some ++ [none])).2,
      kt.1 = TokenKind.unknown)
    ∧ (((((Lexer.new [((keyword_automaton ([0] : List Nat)), Kinds.a)]).lexT
        (([1, 1] : List Nat).map some ++ [none])).2).map
        (fun kt => kt.2)).flatten = [1, 1]) := by
  refine C4_unknown_fallback _ [1, 1] (by decide) ?_
  intro q hinf ak hak
  have hak2 : ak = ((keyword_automaton ([0] : List Nat)), Kinds.a) := by
    simpa using hak
  subst hak2
  apply keyword_not_accepting
  intro hq
  subst hq
  exact absurd hinf (by decide)

/-- C10: empty-text edge cases. For every freshly built automaton set
(start states non-accepting, as the Builder guarantees): scanning only
the sentinel emits exactly one Unknown token with empty consumed text;
and when no automaton's start state matches the first input symbol, the
scan first emits an Unknown token with empty text and then a
single-symbol Unknown token carrying that symbol. -/
theorem C10_empty_text_edge [LinearOrder Sym] [TokenKind K]
    (A0 : List (Automaton Sym × K))
    (hF : ∀ ak ∈ A0, ak.1.current_state = some START)
    (hSA : ∀ ak ∈ A0, isAcceptingState ak.1 = false) :
    ((Lexer.new A0).lexT [none]).2 = [(TokenKind.unknown, ([] : List Sym))]
    ∧ ∀ (x : Sym) (xs : List Sym),
        (∀ ak ∈ A0, (ak.1.transition (some x)).is_alive = false) →
        (((Lexer.new A0).lexT ((x :: xs).map some ++ [none])).2).take 2
          = [(TokenKind.unknown, []), (TokenKind.unknown, [x])] := by
  constructor
  · have h := lexT_eq_tokensFrom hF ([] : List Sym)
    simp only [List.map_nil, List.nil_append] at h
    rw [h]
    simp only [tokensFrom, anyAliveNext_none, Bool.false_eq_true, if_false]
    rw [selectKind_nil_unknown hSA]
  · intro x xs hx
    have h := lexT_eq_tokensFrom hF (x :: xs)
    rw [h]
    have hnx : anyAliveNext A0 [] (some x) = false := by
      rw [anyAliveNext, List.any_eq_false]
      intro ak hak
      rw [feed_nil, hx ak hak]
      simp
    simp only [List.map_cons, List.cons_append, tokensFrom, hnx,
      Bool.false_eq_true, if_false, Option.toList_some]
    rw [selectKind_nil_unknown hSA]
    have hdead1 : ∀ ak ∈ A0, (feed ak.1 [x]).is_alive = false := by
      intro ak hak
      show (ak.1.transition (some x)).is_alive = false
      exact hx ak hak
    have hsel : selectKind A0 [x] = TokenKind.unknown := by
      rw [selectKind]
      have hfind : A0.find? (fun ak => isAcceptingState (feed ak.1 [x])) = none := by
        rw [List.find?_eq_none]
        intro ak hak
        rw [not_accepting_of_dead (hdead1 ak hak)]
        simp
      rw [hfind]
    cases xs with
    | nil =>
      simp only [List.map_nil, List.nil_append, tokensFrom, anyAliveNext_none,
        Bool.false_eq_true, if_false, Option.toList_some]
      rw [hsel]
      rfl
    | cons y ys =>
      have hny : anyAliveNext A0 [x] (some y) = false := by
        rw [anyAliveNext, List.any_eq_false]
        intro ak hak
        have hd : (feed ak.1 [x]).current_state = none :=
          (is_alive_false_iff _).mp (hdead1 ak hak)
        rw [Automaton.is_alive, transition_dead hd]
        simp
      simp only [List.map_cons, List.cons_append, tokensFrom, Option.toList_some,
        hny, Bool.false_eq_true, if_false]
      rw [hsel]
      rfl

/-- C10 witness: the keyword automaton for [0]: sentinel-only scan and a
scan beginning with the unmatched symbol 1. -/
theorem C10_witness :
    (((Lexer.new [((keyword_automaton ([0] : List Nat)), Kinds.a)]).lexT [none]).2
      = [(TokenKind.unknown, ([] : List Nat))])
    ∧ ((((Lexer.new [((keyword_automaton ([0] : List Nat)), Kinds.a)]).lexT
        (((1 : Nat) :: [5]).map some ++ [none])).2).take 2
      = [(TokenKind.unknown, []), (TokenKind.unknown, [1])]) :=
  ⟨(C10_empty_text_edge _ (by decide) (by decide)).1,
   (C10_empty_text_edge _ (by decide) (by decide)).2 1 [5] (by decide)⟩

/-- Formalization of C1 exactly as claimed: every emitted token's length
is the GREATEST k such that at least one registered automaton remained
alive after every prefix of length up to k of the remaining input (the
remaining input being the input minus the runs consumed by the earlier
tokens). -/
def claimC1Greatest : Prop :=
  ∀ (A0 : List (Automaton Nat × Kinds)) (xs : List Nat),
    (∀ ak ∈ A0, ak.1.current_state = some START) →
    ∀ (i : Nat) (kt : Kinds × List Nat),
      (((Lexer.new A0).lexT (xs.map some ++ [none])).2).get? i = some kt →
      IsGreatest {k | k ≤ (xs.drop
            (((((Lexer.new A0).lexT (xs.map some ++ [none])).2.take i).map
              (fun kt2 => kt2.2.length)).sum)).length
          ∧ ∀ j, j ≤ k → anyAliveP A0 ((xs.drop
            (((((Lexer.new A0).lexT (xs.map some ++ [none])).2.take i).map
              (fun kt2 => kt2.2.length)).sum)).take j) = true}
        kt.2.length

/-- C1 counterexample: with the single keyword automaton for [0] and
input [1], the scan emits an empty Unknown token and then the Unknown
token [1] of length 1, although no automaton survives even the first
symbol of the remaining input ([1]) — the greatest alive-prefix length
is 0, not 1. So token length does NOT always equal the longest
alive-prefix of the remaining input. -/
theorem C1_counterexample : ¬ claimC1Greatest := by
  intro h
  have h2 := h [((keyword_automaton ([0] : List Nat)), Kinds.a)] [1] (by decide)
    1 (Kinds.u, [1]) (by decide)
  have hmem := h2.1
  rw [Set.mem_setOf_eq] at hmem
  have h3 := hmem.2 1 (le_refl 1)
  exact absurd h3 (by decide)

/-- C1 (amended): maximal munch with the forced-progress exception. For
every freshly built automaton set and every input, each emitted token's
consumed length equals the greedy munch length of the remaining input
(`munchFrom A0 []`, which is the greatest alive-prefix length, as the
second conjunct states) whenever that munch length is positive; when it
is 0 — no automaton survives even one symbol — the emitted token has
length at most 1 (the empty leading token or a forced single-symbol
Unknown token). The boundary is declared only when no automaton in
contention survives, which is what the greedy `munchFrom` recursion
captures. -/
theorem C1_maximal_munch [LinearOrder Sym] [TokenKind K]
    (A0 : List (Automaton Sym × K)) (xs : List Sym)
    (hF : ∀ ak ∈ A0, ak.1.current_state = some START) :
    (∀ (i : Nat) (kt : K × List Sym),
        (((Lexer.new A0).lexT (xs.map some ++ [none])).2).get? i = some kt →
        (0 < munchFrom A0 [] (xs.drop
            (((((Lexer.new A0).lexT (xs.map some ++ [none])).2.take i).map
              (fun kt2 => kt2.2.length)).sum)) →
          kt.2.length = munchFrom A0 [] (xs.drop
            (((((Lexer.new A0).lexT (xs.map some ++ [none])).2.take i).map
              (fun kt2 => kt2.2.length)).sum)))
        ∧ (munchFrom A0 [] (xs.drop
            (((((Lexer.new A0).lexT (xs.map some ++ [none])).2.take i).map
              (fun kt2 => kt2.2.length)).sum)) = 0 → kt.2.length ≤ 1))
    ∧ (A0 ≠ [] → ∀ r : List Sym,
        IsGreatest {k | k ≤ r.length
            ∧ ∀ j, j ≤ k → anyAliveP A0 (r.take j) = true}
          (munchFrom A0 [] r)) := by
  constructor
  · intro i kt hkt
    have hts : ((Lexer.new A0).lexT (xs.map some ++ [none])).2
        = (chunksFrom A0 [] xs).map (fun q => (selectKind A0 q, q)) := by
      rw [lexT_eq_tokensFrom hF, tokensFrom_eq_chunks]
    rw [hts] at hkt ⊢
    rw [List.get?_map] at hkt
    cases hc : (chunksFrom A0 [] xs).get? i with
    | none => rw [hc] at hkt; cases hkt
    | some c =>
      rw [hc, Option.map_some'] at hkt
      have hkt2 : kt = (selectKind A0 c, c) := (Option.some.inj hkt).symm
      subst hkt2
      have hsum : (((chunksFrom A0 [] xs).map
            (fun q => (selectKind A0 q, q))).take i).map (fun kt2 => kt2.2.length)
          = ((chunksFrom A0 [] xs).take i).map List.length := by
        rw [← List.map_take, List.map_map]
        rfl
      rw [hsum]
      exact chunksFrom_top A0 xs i c hc
  · intro hne r
    have halive : anyAliveP A0 ([] : List Sym) = true := by
      cases A0 with
      | nil => exact absurd rfl hne
      | cons ak rest =>
        rw [anyAliveP, List.any_eq_true]
        refine ⟨ak, List.mem_cons_self _ _, ?_⟩
        rw [feed_nil, Automaton.is_alive, hF ak (List.mem_cons_self _ _)]
        rfl
    exact munchFrom_isGreatest halive r

/-- C1 witness: the amended maximal-munch statement instantiated at the
keyword automaton for [0] and the input [0, 1]. -/
theorem C1_witness :
    (∀ ak ∈ [((keyword_automaton ([0] : List Nat)), Kinds.a)],
      ak.1.current_state = some START)
    ∧ ((∀ (i : Nat) (kt : Kinds × List Nat),
        (((Lexer.new [((keyword_automaton ([0] : List Nat)), Kinds.a)]).lexT
            (([0, 1] : List Nat).map some ++ [none])).2).get? i = some kt →
        (0 < munchFrom [((keyword_automaton ([0] : List Nat)), Kinds.a)] []
            (([0, 1] : List Nat).drop
            (((((Lexer.new [((keyword_automaton ([0] : List Nat)), Kinds.a)]).lexT
              (([0, 1] : List Nat).map some ++ [none])).2.take i).map
              (fun kt2 => kt2.2.length)).sum)) →
          kt.2.length = munchFrom [((keyword_automaton ([0] : List Nat)), Kinds.a)] []
            (([0, 1] : List Nat).drop
            (((((Lexer.new [((keyword_automaton ([0] : List Nat)), Kinds.a)]).lexT
              (([0, 1] : List Nat).map some ++ [none])).2.take i).map
              (fun kt2 => kt2.2.length)).sum)))
        ∧ (munchFrom [((keyword_automaton ([0] : List Nat)), Kinds.a)] []
            (([0, 1] : List Nat).drop
            (((((Lexer.new [((keyword_automaton ([0] : List Nat)), Kinds.a)]).lexT
              (([0, 1] : List Nat).map some ++ [none])).2.take i).map
              (fun kt2 => kt2.2.length)).sum)) = 0 → kt.2.length ≤ 1))
      ∧ ([((keyword_automaton ([0] : List Nat)), Kinds.a)] ≠ [] →
          ∀ r : List Nat,
            IsGreatest {k | k ≤ r.length
                ∧ ∀ j, j ≤ k →
                    anyAliveP [((keyword_automaton ([0] : List Nat)), Kinds.a)]
                      (r.take j) = true}
              (munchFrom [((keyword_automaton ([0] : List Nat)), Kinds.a)] [] r))) :=
  ⟨by decide, C1_maximal_munch _ [0, 1] (by decide)⟩

end QCT
